import Mathlib

/-!
Verification of the belief consolidation and analysis pipeline
(`src/belief_merger.py`, `src/belief_linker.py`, `src/belief_graph_metrics.py`).

The Python code is shallowly embedded: pandas DataFrames of belief records
become `List Belief`, floats become `ℚ`, `None`/`NaN` become `Option`.
The sklearn TF-IDF vectorizer and networkx are external libraries; they are
modelled as parameters (a similarity matrix `Nat → Nat → ℚ`, a similarity
scoring function, a graph-analytics backend), wrapped in `Option` where the
Python wraps the library call in `try/except`.
-/

namespace PBM

/-- A belief record, mirroring the columns produced by the extraction
pipeline and consumed by `BeliefMerger` / `BeliefLinker`
(see the field list built in `BeliefMerger._merge_duplicates`). -/
structure Belief where
  belief_id : String
  discovery_level : Int
  chunk_id : String
  chunk_size : Int
  speaker_id : String
  episode_id : String
  timestamp : String
  statement_text : String
  importance : Int
  tier_name : String
  category : String
  conviction_score : ℚ
  stability_score : ℚ
  parent_hint : String
  parent_belief_id : Option String
  defines_outgroup : Bool
  filter_confidence : ℚ
deriving Repr, DecidableEq, Inhabited

/-! ### Executable helpers mirroring Python built-ins -/

/-- Insertion step of an ascending sort (model of Python `sorted`). -/
def insertAsc (x : Int) : List Int → List Int
  | [] => [x]
  | y :: ys => if x ≤ y then x :: y :: ys else y :: insertAsc x ys

/-- Model of Python `sorted` on a list of ints: ascending order. -/
def pySort (l : List Int) : List Int := l.foldr insertAsc []

/-- Whitespace test used by Python `str.strip` (ASCII whitespace). -/
def isPySpace (c : Char) : Bool :=
  c = ' ' || c = '\t' || c = '\n' || c = '\x0d' || c = '\x0b' || c = '\x0c'

/-- Model of Python `str.strip()`: drop leading and trailing whitespace. -/
def pyStrip (s : String) : String :=
  ⟨((s.data.dropWhile isPySpace).reverse.dropWhile isPySpace).reverse⟩

/-- Model of Python `str.lower()` (character-wise lowering). -/
def pyLower (s : String) : String := ⟨s.data.map Char.toLower⟩

/-- Does `l` start with `p`? (helper for substring containment). -/
def startsWithSeq [DecidableEq α] : List α → List α → Bool
  | _, [] => true
  | [], _ :: _ => false
  | x :: xs, y :: ys => x = y && startsWithSeq xs ys

/-- Is `needle` a contiguous subsequence of `hay`? -/
def containsSeq [DecidableEq α] (needle : List α) : List α → Bool
  | [] => needle.isEmpty
  | x :: xs => startsWithSeq (x :: xs) needle || containsSeq needle xs

/-- Model of Python `needle in hay` on strings. -/
def containsSub (hay needle : String) : Bool := containsSeq needle.data hay.data

/-- Model of `pandas.Series.mode().iloc[0]`: the least value attaining the
maximal multiplicity (pandas sorts the modes ascending). -/
def pandasMode [LinearOrder α] (l : List α) : Option α :=
  (l.filter (fun x => l.all (fun y => l.count y ≤ l.count x))).min?

/-- Model of `pandas.Series.mean()` over rationals. -/
def listMeanQ (l : List ℚ) : ℚ := l.sum / l.length

/-- Model of Python `int()` applied to a float: truncation toward zero. -/
def intTrunc (q : ℚ) : Int := if 0 ≤ q then q.floor else q.ceil

/-- Model of `numpy.argmax`: index of the first maximal element (0 on empty
input, which the sources never hit: the scanned lists are nonempty). -/
def argmaxIdx (l : List ℚ) : Nat :=
  match l with
  | [] => 0
  | x :: xs =>
    (xs.enum.foldl (fun (acc : Nat × ℚ) p => if acc.2 < p.2 then (p.1 + 1, p.2) else acc)
      (0, x)).1

/-- Replace the element at position `i` by `f` of it (model of a pandas
single-cell `.at[idx, col] = v` update). -/
def modifyAt (f : α → α) : Nat → List α → List α
  | _, [] => []
  | 0, x :: xs => f x :: xs
  | n + 1, x :: xs => x :: modifyAt f n xs

/-- Zero-padding of `f'dup_{gid+1:04d}'`. -/
def pad4 (n : Nat) : String :=
  if n < 10 then "000" ++ toString n
  else if n < 100 then "00" ++ toString n
  else if n < 1000 then "0" ++ toString n
  else toString n

/-- The duplicate-group identifier string `f'dup_{group_id+1:04d}'`. -/
def dupGroupId (gid : Nat) : String := "dup_" ++ pad4 (gid + 1)

/-! ### `BeliefMerger._find_duplicates`

The TF-IDF cosine-similarity matrix produced by sklearn is the abstract
parameter `sim : Nat → Nat → ℚ`; the whole `try` block around vectorization
is modelled by an `Option`: `none` is the `except` path. -/

/-- Model of `np.where(similarity_matrix[i] >= threshold)[0]`: the indices `j < n`
whose similarity to `i` meets the threshold, ascending. -/
def similarIndices (sim : Nat → Nat → ℚ) (n : Nat) (θ : ℚ) (i : Nat) : List Nat :=
  (List.range n).filter (fun j => θ ≤ sim i j)

/-- One iteration of the greedy duplicate-grouping scan of
`BeliefMerger._find_duplicates`: state is (groups found so far, processed set). -/
def greedyStep (sim : Nat → Nat → ℚ) (θ : ℚ) (n : Nat)
    (st : List (List Nat) × Finset Nat) (i : Nat) : List (List Nat) × Finset Nat :=
  if i ∈ st.2 then st
  else
    let similar := similarIndices sim n θ i
    if 1 < similar.length then
      let group := similar.filter (fun j => j ∉ st.2)
      if 1 < group.length then (st.1 ++ [group], st.2 ∪ group.toFinset) else st
    else st

/-- Model of `BeliefMerger._find_duplicates`: fewer than two beliefs or a failed
vectorization (`simOpt = none`, the `except` path) yield no groups; otherwise
a single greedy pass over the beliefs in input order. -/
def findDuplicates (simOpt : Option (Nat → Nat → ℚ)) (n : Nat) (θ : ℚ) : List (List Nat) :=
  if n < 2 then []
  else
    match simOpt with
    | none => []
    | some sim => ((List.range n).foldl (greedyStep sim θ n) ([], ∅)).1

/-- The invariant maintained by the greedy scan of `_find_duplicates`. -/
def GoodState (n : Nat) (st : List (List Nat) × Finset Nat) : Prop :=
  (∀ g ∈ st.1, 1 < g.length ∧ List.Sorted (· < ·) g ∧ ∀ j ∈ g, j < n) ∧
    st.1.flatten.Nodup ∧ ∀ j, j ∈ st.2 ↔ j ∈ st.1.flatten

/-! ### `BeliefMerger._keep_all_with_tags` -/

/-- A belief row after `_keep_all_with_tags` added the three reinforcement
columns (initialized to `None`/`None`/`1`). -/
structure TaggedBelief where
  base : Belief
  duplicate_group_id : Option String
  reinforcement_levels : Option String
  reinforcement_count : Nat
deriving Repr, DecidableEq, Inhabited

/-- A row of the mapping artifact built by `_keep_all_with_tags`. -/
structure KeepAllMapRow where
  belief_id : String
  duplicate_group_id : String
  is_primary : Bool
  reinforcement_count : Nat
deriving Repr, DecidableEq, Inhabited

/-- The comma-joined sorted discovery levels of a group
(`','.join(map(str, sorted(levels)))`). -/
def levelsJoined (levels : List Int) : String :=
  String.intercalate "," ((pySort levels).map toString)

/-- One write of the tagging loop of `_keep_all_with_tags`: set the three
reinforcement columns of row `idx` and append its mapping record
(`is_primary` iff `idx` is the group head, `indices[0]`). -/
def tagStep (gidStr lv : String) (cnt : Nat) (hd : Option Nat)
    (acc : List TaggedBelief × List KeepAllMapRow) (idx : Nat) :
    List TaggedBelief × List KeepAllMapRow :=
  let tagged := modifyAt
    (fun tb => { tb with
      duplicate_group_id := some gidStr
      reinforcement_levels := some lv
      reinforcement_count := cnt }) idx acc.1
  (tagged,
    acc.2 ++ [{ belief_id := (tagged.getD idx default).base.belief_id
                duplicate_group_id := gidStr
                is_primary := decide (hd = some idx)
                reinforcement_count := cnt }])

/-- Tagging of one duplicate group inside `_keep_all_with_tags` (the group's
level list is read from the current frame before the loop). -/
def tagGroup (gid : Nat) (g : List Nat)
    (st : List TaggedBelief × List KeepAllMapRow) : List TaggedBelief × List KeepAllMapRow :=
  let lv := levelsJoined (g.map (fun j => ((st.1.getD j default).base.discovery_level)))
  g.foldl (tagStep (dupGroupId gid) lv g.length g.head?) st

/-- Model of `BeliefMerger._keep_all_with_tags`: every row survives; duplicate groups
are tagged with a group id, the group size and the sorted level list. -/
def keepAllWithTags (df : List Belief) (groups : List (List Nat)) :
    List TaggedBelief × List KeepAllMapRow :=
  let init : List TaggedBelief := df.map (fun b => ⟨b, none, none, 1⟩)
  groups.enum.foldl (fun st p => tagGroup p.1 p.2 st) (init, [])

/-! ### `BeliefMerger._keep_best_fit` -/

/-- A row of the mapping artifact built by `_keep_best_fit`. -/
structure KeepBestMapRow where
  belief_id : String
  duplicate_group_id : String
  kept_belief_id : String
  is_primary : Bool
  score : ℚ
deriving Repr, DecidableEq, Inhabited

/-- Model of `BeliefMerger._get_ideal_level`: reverse mapping from importance to the
expected discovery level. -/
def getIdealLevel (importance : Int) : Int := 11 - importance

/-- The best-fit score of `_keep_best_fit`:
`conviction_score * (1 / (1 + abs(discovery_level - ideal_level)))`. -/
def bestFitScore (b : Belief) : ℚ :=
  b.conviction_score * (1 / (1 + ((b.discovery_level - getIdealLevel b.importance).natAbs : ℚ)))

/-- The score list of one duplicate group. -/
def groupScores (df : List Belief) (g : List Nat) : List ℚ :=
  g.map (fun j => bestFitScore (df.getD j default))

/-- Model of `best_idx = indices[np.argmax(scores)]`. -/
def bestIdxOf (df : List Belief) (g : List Nat) : Nat :=
  g.getD (argmaxIdx (groupScores df g)) 0

/-- The set of indices removed by `_keep_best_fit` (all group members except
each group's best scorer). -/
def removedByBest (df : List Belief) (groups : List (List Nat)) : Finset Nat :=
  groups.foldl (fun acc g => acc ∪ (g.filter (fun j => j ≠ bestIdxOf df g)).toFinset) ∅

/-- The surviving indices of `_keep_best_fit`, ascending. -/
def keptIndices (df : List Belief) (n : Nat) (groups : List (List Nat)) : List Nat :=
  (List.range n).filter (fun j => j ∉ removedByBest df groups)

/-- The mapping rows of one group in `_keep_best_fit`. -/
def bestMapRows (df : List Belief) (gid : Nat) (g : List Nat) : List KeepBestMapRow :=
  g.map (fun idx =>
    { belief_id := (df.getD idx default).belief_id
      duplicate_group_id := dupGroupId gid
      kept_belief_id := (df.getD (bestIdxOf df g) default).belief_id
      is_primary := decide (idx = bestIdxOf df g)
      score := (groupScores df g).getD (g.findIdx (fun j => j = idx)) 0 })

/-- Model of `BeliefMerger._keep_best_fit`: keep one best-scoring row per duplicate
group, record every group member in the mapping artifact. -/
def keepBestFit (df : List Belief) (groups : List (List Nat)) :
    List Belief × List KeepBestMapRow :=
  ((keptIndices df df.length groups).map (fun j => df.getD j default),
    (groups.enum.map (fun p => bestMapRows df p.1 p.2)).flatten)

/-! ### `BeliefMerger._merge_duplicates` -/

/-- A belief row carrying the two reinforcement columns present in the output
of `_merge_duplicates`. -/
structure ReinforcedBelief where
  base : Belief
  reinforcement_count : Nat
  reinforcement_levels : String
deriving Repr, DecidableEq, Inhabited

/-- A row of the mapping artifact built by `_merge_duplicates`. -/
structure MergeMapRow where
  original_belief_id : String
  merged_belief_id : String
  duplicate_group_id : String
deriving Repr, DecidableEq, Inhabited

/-- The synthetic record `_merge_duplicates` builds for one duplicate group:
identity/provenance/text fields from the group's first member, categorical
fields by mode, numeric scores by mean. -/
def mergedRecord (df : List Belief) (g : List Nat) : ReinforcedBelief :=
  let rows := g.map (fun j => df.getD j default)
  let first := rows.headD default
  { base :=
      { belief_id := first.belief_id
        discovery_level := (pandasMode (rows.map (·.discovery_level))).getD 0
        chunk_id := String.intercalate "," (rows.map (·.chunk_id))
        chunk_size := intTrunc (listMeanQ (rows.map (fun r => (r.chunk_size : ℚ))))
        speaker_id := (pandasMode (rows.map (·.speaker_id))).getD ""
        episode_id := first.episode_id
        timestamp := first.timestamp
        statement_text := first.statement_text
        importance := (pandasMode (rows.map (·.importance))).getD 0
        tier_name := (pandasMode (rows.map (·.tier_name))).getD ""
        category := (pandasMode (rows.map (·.category))).getD ""
        conviction_score := listMeanQ (rows.map (·.conviction_score))
        stability_score := listMeanQ (rows.map (·.stability_score))
        parent_hint := first.parent_hint
        parent_belief_id := none
        defines_outgroup := (pandasMode (rows.map (·.defines_outgroup))).getD false
        filter_confidence := listMeanQ (rows.map (·.filter_confidence)) }
    reinforcement_count := g.length
    reinforcement_levels := levelsJoined (rows.map (·.discovery_level)) }

/-- Model of `BeliefMerger._merge_duplicates`: group members are removed, one merged
record per group is appended after the untouched rows. -/
def mergeDuplicates (df : List Belief) (groups : List (List Nat)) :
    List ReinforcedBelief × List MergeMapRow :=
  let removed : Finset Nat := groups.foldl (fun acc g => acc ∪ g.toFinset) ∅
  let kept := ((List.range df.length).filter (fun j => j ∉ removed)).map
    (fun j =>
      let b := df.getD j default
      (⟨b, 1, toString b.discovery_level⟩ : ReinforcedBelief))
  let merged := groups.map (mergedRecord df)
  let mapping := (groups.enum.map (fun p =>
    p.2.map (fun idx =>
      ({ original_belief_id := (df.getD idx default).belief_id
         merged_belief_id := (mergedRecord df p.2).base.belief_id
         duplicate_group_id := dupGroupId p.1 } : MergeMapRow)))).flatten
  (kept ++ merged, mapping)

/-! ### `BeliefMerger.merge_beliefs` -/

/-- The result of `merge_beliefs`: the Python returns a `(DataFrame, DataFrame)`
pair whose column shape depends on the strategy; `emptyIn` is the early return
`(df, pd.DataFrame())` on empty input. -/
inductive MergeOutcome where
  | emptyIn (beliefs : List Belief)
  | keptAll (beliefs : List TaggedBelief) (mapping : List KeepAllMapRow)
  | keptBest (beliefs : List Belief) (mapping : List KeepBestMapRow)
  | mergedOut (beliefs : List ReinforcedBelief) (mapping : List MergeMapRow)
deriving Repr, DecidableEq

/-- Model of `BeliefMerger.merge_beliefs`: empty guard, duplicate detection, then
dispatch on the keep strategy (`"all"`, `"best"`, else merge). -/
def mergeBeliefs (simOpt : Option (Nat → Nat → ℚ)) (θ : ℚ) (keepStrategy : String)
    (df : List Belief) : MergeOutcome :=
  if df.isEmpty then .emptyIn df
  else
    let groups := findDuplicates simOpt df.length θ
    if keepStrategy = "all" then
      let r := keepAllWithTags df groups
      .keptAll r.1 r.2
    else if keepStrategy = "best" then
      let r := keepBestFit df groups
      .keptBest r.1 r.2
    else
      let r := mergeDuplicates df groups
      .mergedOut r.1 r.2

/-! ### `BeliefLinker._find_parent`

The refit-per-call TF-IDF scoring of the hint against the candidate statement
texts is the abstract parameter
`simFn : String → List String → Option (List ℚ)` (query, candidate texts ↦
scores); `none` is the `except` path, which falls back to case-insensitive
substring containment. -/

/-- The candidate parents of belief `i`: all other rows with strictly lower
importance, in input order. -/
def linkCandidates (df : List Belief) (i : Nat) : List Belief :=
  let imp := (df.getD i default).importance
  (df.enum.filter (fun p => p.1 ≠ i ∧ p.2.importance < imp)).map (·.2)

/-- Model of `BeliefLinker._find_parent`: argmax similarity over the candidates,
thresholded; substring-containment fallback on vectorization failure. -/
def findParent (simFn : String → List String → Option (List ℚ)) (θ : ℚ)
    (parentHint : String) (df : List Belief) (i : Nat) : Option String :=
  let cands := linkCandidates df i
  if cands.isEmpty then none
  else
    match simFn parentHint (cands.map (·.statement_text)) with
    | some sims =>
      let bi := argmaxIdx sims
      if θ ≤ sims.getD bi 0 then some ((cands.getD bi default).belief_id) else none
    | none =>
      match cands.find? (fun c => containsSub (pyLower c.statement_text) (pyLower parentHint)) with
      | some c => some c.belief_id
      | none => none

/-- One iteration of the linking loop of `BeliefLinker.link_beliefs`:
skip rows with an empty (or blank) hint; a truthy returned parent id is
written into `parent_belief_id`. -/
def assignStep (simFn : String → List String → Option (List ℚ)) (θ : ℚ)
    (cur : List Belief) (idx : Nat) : List Belief :=
  let hint := (cur.getD idx default).parent_hint
  if pyStrip hint = "" then cur
  else
    match findParent simFn θ hint cur idx with
    | some pid =>
      if pid = "" then cur
      else modifyAt (fun b => { b with parent_belief_id := some pid }) idx cur
    | none => cur

/-- The linking pass of `BeliefLinker.link_beliefs` (before validation). -/
def assignParents (simFn : String → List String → Option (List ℚ)) (θ : ℚ)
    (df : List Belief) : List Belief :=
  (List.range df.length).foldl (assignStep simFn θ) df

/-- A belief with its parent reference erased: the linking loop changes only
`parent_belief_id`, so frames reached during the loop agree with the input
under this projection. -/
def stripParent (b : Belief) : Belief := { b with parent_belief_id := none }

/-! ### `BeliefLinker._validate_hierarchy` -/

/-- The children adjacency of the parent relation: the belief ids whose
`parent_belief_id` is `p`, in input order. -/
def childrenOf (df : List Belief) (p : String) : List String :=
  (df.filter (fun b => b.parent_belief_id = some p)).map (·.belief_id)

mutual

/-- The recursive `has_cycle` DFS of `_validate_hierarchy`; `V` is the
mutable `visited` set (threaded through and returned), `R` the recursion
stack. The fuel argument only bounds the recursion depth; `_validate_hierarchy`
calls it with fuel exceeding the number of beliefs, which is never exhausted. -/
def hasCycleNode (ch : String → List String) (fuel : Nat) (node : String)
    (V R : Finset String) : Bool × Finset String :=
  match fuel with
  | 0 => (false, V)
  | f + 1 => hasCycleKids ch f (ch node) (insert node V) (insert node R)
termination_by (fuel, 0)

/-- The loop over `children[node]` inside `has_cycle`. -/
def hasCycleKids (ch : String → List String) (fuel : Nat) (l : List String)
    (V R : Finset String) : Bool × Finset String :=
  match l with
  | [] => (false, V)
  | c :: cs =>
    if c ∈ V then
      if c ∈ R then (true, V) else hasCycleKids ch fuel cs V R
    else
      match hasCycleNode ch fuel c V R with
      | (true, V1) => (true, V1)
      | (false, V1) => hasCycleKids ch fuel cs V1 R
termination_by (fuel, l.length + 1)

end

/-- One iteration of the validation loop: DFS from a not-yet-visited belief
id, with a warning recorded (the Python prints it) when a cycle is hit. -/
def validateStep (ch : String → List String) (fuel : Nat)
    (st : Finset String × List String) (bid : String) : Finset String × List String :=
  if bid ∈ st.1 then st
  else
    match hasCycleNode ch fuel bid st.1 ∅ with
    | (true, V) => (V, st.2 ++ [bid])
    | (false, V) => (V, st.2)

/-- Model of `BeliefLinker._validate_hierarchy`: DFS from every not-yet-visited belief
id; returns the list of warned (implicated) belief ids instead of printing. -/
def validateHierarchy (df : List Belief) : List String :=
  ((df.map (·.belief_id)).foldl (validateStep (childrenOf df) (df.length + 1)) (∅, [])).2

/-- The parent→child edge relation of the children adjacency. -/
def chEdge (ch : String → List String) (x y : String) : Prop := y ∈ ch x

/-- A node from which a cycle of the children relation is reachable. -/
def CycReach (ch : String → List String) (a : String) : Prop :=
  ∃ m, Relation.ReflTransGen (chEdge ch) a m ∧ Relation.TransGen (chEdge ch) m m

/-- Model of `BeliefLinker.link_beliefs`: empty guard, linking pass, then the advisory
cycle validation; returns the linked collection together with the warning
list (the Python prints the warnings and returns only the collection). -/
def linkBeliefs (simFn : String → List String → Option (List ℚ)) (θ : ℚ)
    (df : List Belief) : List Belief × List String :=
  if df.isEmpty then (df, [])
  else
    let r := assignParents simFn θ df
    (r, validateHierarchy r)

/-! ### `BeliefLinker.get_hierarchy_stats` -/

/-- The recursive `get_depth` helper of `get_hierarchy_stats`, with its
write-after-return memo dict. The fuel models the Python recursion limit:
`none` means the recursion depth exceeded the fuel, for every fuel — i.e.
the Python recurses without bound. -/
def getDepth (df : List Belief) : Nat → String → List (String × Nat) →
    Option (Nat × List (String × Nat))
  | 0, _, _ => none
  | f + 1, bid, memo =>
    match memo.lookup bid with
    | some d => some (d, memo)
    | none =>
      match df.find? (fun b => b.belief_id = bid) with
      | none => some (0, memo)
      | some b =>
        match b.parent_belief_id with
        | none => some (0, memo ++ [(bid, 0)])
        | some pid =>
          match getDepth df f pid memo with
          | none => none
          | some (d, memo1) => some (d + 1, memo1 ++ [(bid, d + 1)])

/-- The statistics dict returned by `get_hierarchy_stats`. -/
structure HierarchyStats where
  total_beliefs : Nat
  has_parent : Nat
  is_parent : Nat
  root_beliefs : Nat
  leaf_beliefs : Nat
  max_depth : Nat
  avg_depth : ℚ
  connectivity : ℚ
deriving Repr, DecidableEq

/-- Model of `BeliefLinker.get_hierarchy_stats`; each belief's depth is computed by
`get_depth` with a fresh memo. `none` propagates an exhausted recursion
bound (the Python would hit `RecursionError`). -/
def getHierarchyStats (fuel : Nat) (df : List Belief) : Option HierarchyStats :=
  let parentIds := df.filterMap (·.parent_belief_id)
  let total := df.length
  let hasParentCnt := (df.filter (fun b => b.parent_belief_id.isSome)).length
  let isParentCnt := (df.filter (fun b => b.belief_id ∈ parentIds)).length
  let rootCnt := (df.filter (fun b => b.parent_belief_id.isNone)).length
  let leafCnt := (df.filter (fun b => b.belief_id ∉ parentIds)).length
  match (df.map (·.belief_id)).mapM (fun bid => (getDepth df fuel bid []).map (·.1)) with
  | none => none
  | some depths =>
    some
      { total_beliefs := total
        has_parent := hasParentCnt
        is_parent := isParentCnt
        root_beliefs := rootCnt
        leaf_beliefs := leafCnt
        max_depth := depths.foldr max 0
        avg_depth := if depths.isEmpty then 0 else ((depths.map (fun d => (d : ℚ))).sum / depths.length)
        connectivity := if 0 < total then ((hasParentCnt : ℚ) / total) * 100 else 0 }

/-! ### `BeliefGraphMetrics.analyze`

All graph analytics past the empty-input guard are networkx computations
(centrality, communities, keystone selection); they are external to this
repository and are modelled as the abstract `backend`. `none` models the `{}`
returned on empty input. -/

/-- Model of `BeliefGraphMetrics.analyze`: the `if df is None or df.empty: return {}`
guard, then the backend analytics on the non-empty collection. -/
def analyze {α : Type} (backend : List Belief → α) (df : List Belief) : Option α :=
  if df.isEmpty then none else some (backend df)

/-! ### A specification-side definition, for comparison with `findDuplicates` -/

/-- Two statements are similar under the degraded test when either contains
the other, case-insensitively. -/
def substringSimilar (a b : String) : Bool :=
  containsSub (pyLower a) (pyLower b) || containsSub (pyLower b) (pyLower a)

/-- Modelled from the spec: the degraded duplicate grouping the specification
prescribes when vectorization fails — the same greedy single-pass scan, with
the case-insensitive literal substring containment test deciding similarity.
`BeliefMerger._find_duplicates` does not implement this; the definition exists
only to compare the specified behavior against the code. -/
def specFallbackDuplicateGroups (df : List Belief) : List (List Nat) :=
  let texts := df.map (·.statement_text)
  let n := df.length
  if n < 2 then []
  else
    ((List.range n).foldl
      (fun (st : List (List Nat) × Finset Nat) i =>
        if i ∈ st.2 then st
        else
          let similar := (List.range n).filter
            (fun j => substringSimilar (texts.getD i "") (texts.getD j ""))
          if 1 < similar.length then
            let group := similar.filter (fun j => j ∉ st.2)
            if 1 < group.length then (st.1 ++ [group], st.2 ∪ group.toFinset) else st
          else st)
      ([], ∅)).1

/-! ### Concrete fixtures used by witnesses and counterexamples -/

/-- A baseline belief record for concrete instances. -/
def exBase : Belief :=
  { belief_id := "base"
    discovery_level := 3
    chunk_id := "c1"
    chunk_size := 100
    speaker_id := "s1"
    episode_id := "e1"
    timestamp := "00:00"
    statement_text := "taxes are theft"
    importance := 5
    tier_name := "worldview"
    category := "politics"
    conviction_score := 1
    stability_score := 1
    parent_hint := ""
    parent_belief_id := none
    defines_outgroup := false
    filter_confidence := 1 }

/-- First member of a concrete duplicate pair. -/
def exA : Belief := { exBase with belief_id := "A", discovery_level := 6, conviction_score := 0 }

/-- Second member of a concrete duplicate pair (ideal level `11 - 5 = 6`). -/
def exB : Belief := { exBase with belief_id := "B", discovery_level := 6, conviction_score := 1 }

/-- A two-element collection forming one duplicate group under `simOne`. -/
def dfPair : List Belief := [exA, exB]

/-- The all-ones similarity matrix. -/
def simOne (_ _ : Nat) : ℚ := 1

/-- A symmetric similarity matrix on four beliefs under which raising the
threshold from 3/5 to 9/10 grows the set of grouped beliefs. -/
def simCE (i j : Nat) : ℚ :=
  if i = j then 1
  else if min i j = 0 ∧ max i j = 1 then Rat.divInt 9 10
  else if min i j = 0 ∧ max i j = 2 then Rat.divInt 7 10
  else if min i j = 1 ∧ max i j = 2 then Rat.divInt 7 10
  else if min i j = 2 ∧ max i j = 3 then Rat.divInt 9 10
  else 0

/-- Two beliefs whose statements are pure stop words (`"the"`), the canonical
input on which TF-IDF vectorization raises (empty vocabulary) and each text
literally contains the other. -/
def dfStop : List Belief :=
  [{ exBase with belief_id := "S1", statement_text := "the" },
   { exBase with belief_id := "S2", statement_text := "the" }]

/-- A more foundational belief, link target of `exChild`. -/
def exRoot : Belief :=
  { exBase with belief_id := "R", importance := 2, statement_text := "freedom is the highest value" }

/-- A belief carrying a parent hint. -/
def exChild : Belief :=
  { exBase with
      belief_id := "C"
      importance := 8
      parent_hint := "freedom is important"
      statement_text := "tariffs protect freedom" }

/-- The two-element collection exercising the linker. -/
def dfLink : List Belief := [exRoot, exChild]

/-- A similarity scorer returning 7/10 for each candidate. -/
def simSeven (_ : String) (ts : List String) : Option (List ℚ) :=
  some (ts.map (fun _ => Rat.divInt 7 10))

/-- A belief whose assigned parent is `exCycY` — half of a parent cycle. -/
def exCycX : Belief := { exBase with belief_id := "x", parent_belief_id := some "y" }

/-- A belief whose assigned parent is `exCycX` — half of a parent cycle. -/
def exCycY : Belief := { exBase with belief_id := "y", parent_belief_id := some "x" }

/-- A collection whose parent relation is the two-cycle `x ↔ y`. -/
def dfCycle : List Belief := [exCycX, exCycY]

/-- A similarity scorer that always fails (vectorization error path). -/
def simFail (_ : String) (_ : List String) : Option (List ℚ) := none

/-- A correctly linked two-element collection (`C`'s parent is `R`). -/
def dfLinked : List Belief := [exRoot, { exChild with parent_belief_id := some "R" }]

/-! ## Theorems -/

/-- C6 — counterexample. On the vectorization-failure path with two beliefs
whose statements are pure stop words (empty TF-IDF vocabulary, each text
containing the other), `_find_duplicates` returns no groups at all, while the
substring-containment fallback the claim describes would group the pair:
the clusterer does not fall back to substring containment. -/
theorem c6_counterexample :
    findDuplicates none dfStop.length (Rat.divInt 17 20) = [] ∧
      specFallbackDuplicateGroups dfStop = [[0, 1]] := by
  decide

/-- C6 — amended. When vectorization fails during duplicate-group finding
(the `except` path of `_find_duplicates`), the Duplicate Clusterer returns the
empty list of duplicate groups — it treats every belief as ungrouped and does
not apply any substring-containment fallback (that fallback exists only in
`BeliefLinker._find_parent`). -/
theorem c6_amended (n : Nat) (θ : ℚ) : findDuplicates none n θ = [] := by
  unfold findDuplicates
  split <;> rfl

/-- C7 — confirmed. For an empty belief collection every pipeline stage
returns its well-typed neutral result: `merge_beliefs` returns the empty
input with an empty mapping (for every strategy and similarity outcome),
`link_beliefs` returns the input unchanged with no warnings, and
`BeliefGraphMetrics.analyze` returns the empty metrics dict. -/
theorem c7_empty_pipeline {α : Type} (simOpt : Option (Nat → Nat → ℚ)) (θm : ℚ)
    (strategy : String) (simFn : String → List String → Option (List ℚ)) (θl : ℚ)
    (backend : List Belief → α) :
    mergeBeliefs simOpt θm strategy [] = .emptyIn [] ∧
      linkBeliefs simFn θl [] = ([], []) ∧
      analyze backend [] = none := by
  exact ⟨rfl, rfl, rfl⟩

/-- C8 — counterexample. With the four-belief similarity matrix `simCE`,
raising the grouping threshold from 3/5 to 9/10 increases the total number of
grouped beliefs from 3 to 4: at the low threshold the greedy scan groups
`[0, 1, 2]` and leaves 3 ungrouped, at the high threshold it produces the two
groups `[0, 1]` and `[2, 3]`. Threshold monotonicity fails for the greedy
single-pass clustering. -/
theorem c8_counterexample :
    Rat.divInt 3 5 ≤ Rat.divInt 9 10 ∧
      ¬ (((findDuplicates (some simCE) 4 (Rat.divInt 9 10)).map List.length).sum ≤
          ((findDuplicates (some simCE) 4 (Rat.divInt 3 5)).map List.length).sum) := by
  decide

/-- C8 — amended. What is monotone in the threshold is each anchor's direct
similarity neighborhood: raising the threshold never enlarges the set
`np.where(similarity_matrix[i] >= threshold)` scanned by `_find_duplicates`.
The total number of grouped beliefs produced by the greedy pass is not
monotone (see the counterexample). -/
theorem c8_amended (sim : Nat → Nat → ℚ) (n i : Nat) {t1 t2 : ℚ} (h : t1 ≤ t2) :
    ∀ j ∈ similarIndices sim n t2 i, j ∈ similarIndices sim n t1 i := by
  intro j hj
  rw [similarIndices, List.mem_filter] at hj ⊢
  exact ⟨hj.1, decide_eq_true (le_trans h (of_decide_eq_true hj.2))⟩

/-- C8 — witness for the amended theorem at the concrete matrix `simCE`,
thresholds 3/5 ≤ 9/10, anchor 0. -/
theorem c8_amended_witness :
    Rat.divInt 3 5 ≤ Rat.divInt 9 10 ∧
      ∀ j ∈ similarIndices simCE 4 (Rat.divInt 9 10) 0,
        j ∈ similarIndices simCE 4 (Rat.divInt 3 5) 0 :=
  ⟨by decide, c8_amended simCE 4 0 (by decide)⟩

/-- On the cyclic collection `dfCycle`, `get_depth` never returns, whatever
recursion bound it is given: the memo is written only after the recursive
call returns, so it never guards the cycle. -/
theorem getDepth_dfCycle_none :
    ∀ f, getDepth dfCycle f "x" [] = none ∧ getDepth dfCycle f "y" [] = none := by
  have step_x : ∀ f, getDepth dfCycle (f + 1) "x" [] =
      (match getDepth dfCycle f "y" [] with
        | none => none
        | some (d, memo1) => some (d + 1, memo1 ++ [("x", d + 1)])) := fun _ => rfl
  have step_y : ∀ f, getDepth dfCycle (f + 1) "y" [] =
      (match getDepth dfCycle f "x" [] with
        | none => none
        | some (d, memo1) => some (d + 1, memo1 ++ [("y", d + 1)])) := fun _ => rfl
  intro f
  induction f with
  | zero => exact ⟨rfl, rfl⟩
  | succ f ih =>
    refine ⟨?_, ?_⟩
    · rw [step_x f, ih.2]
    · rw [step_y f, ih.1]

/-- C5 — the claim is right and the code is wrong. On a collection whose
parent relation contains a cycle (`dfCycle`: `x ↔ y`), the per-belief depth
recursion of `get_hierarchy_stats` does not terminate: its memo dict is
written only after the recursive call returns, so it is a memoization cache,
not a visited-set guard, and `get_depth` exceeds every recursion bound
(`none` for every fuel — in Python, an unbounded recursion ending in
`RecursionError`). The traversal has no defined result on cyclic data. -/
theorem c5_stats_diverge_on_cycle (fuel : Nat) : getHierarchyStats fuel dfCycle = none := by
  have hx : getDepth dfCycle fuel "x" [] = none := (getDepth_dfCycle_none fuel).1
  have hids : dfCycle.map (·.belief_id) = ["x", "y"] := rfl
  have hm : (dfCycle.map (·.belief_id)).mapM
      (fun bid => (getDepth dfCycle fuel bid []).map (·.1)) = none := by
    rw [hids]
    simp [List.mapM, List.mapM.loop, hx]
  simp only [getHierarchyStats, hm]

/-! ### Helper lemmas: folds of unions, greedy-grouping invariants -/

/-- Membership in a left fold of finite-set unions. -/
theorem mem_foldl_union {α : Type} (G : List α) (S : α → Finset Nat) (A : Finset Nat) (j : Nat) :
    (j ∈ G.foldl (fun acc g => acc ∪ S g) A) ↔ j ∈ A ∨ ∃ g ∈ G, j ∈ S g := by
  induction G generalizing A with
  | nil => simp
  | cons g G ih =>
    simp only [List.foldl_cons, ih, Finset.mem_union, List.mem_cons]
    constructor
    · rintro (⟨hA | hg⟩ | ⟨g', hg', hj⟩)
      · exact Or.inl hA
      · exact Or.inr ⟨g, Or.inl rfl, hg⟩
      · exact Or.inr ⟨g', Or.inr hg', hj⟩
    · rintro (hA | ⟨g', hg' | hg', hj⟩)
      · exact Or.inl (Or.inl hA)
      · exact Or.inl (Or.inr (hg' ▸ hj))
      · exact Or.inr ⟨g', hg', hj⟩

/-- The step `greedyStep` preserves the grouping invariant. -/
theorem greedyStep_good {sim : Nat → Nat → ℚ} {θ : ℚ} {n : Nat}
    {st : List (List Nat) × Finset Nat} (hst : GoodState n st) (i : Nat) :
    GoodState n (greedyStep sim θ n st i) := by
  obtain ⟨hgs, hnd, hmem⟩ := hst
  by_cases h1 : i ∈ st.2
  · have hstep : greedyStep sim θ n st i = st := by
      simp [greedyStep, h1]
    rw [hstep]
    exact ⟨hgs, hnd, hmem⟩
  · by_cases h2 : 1 < (similarIndices sim n θ i).length
    · by_cases h3 : 1 < ((similarIndices sim n θ i).filter (fun j => j ∉ st.2)).length
      · have hstep : greedyStep sim θ n st i =
            (st.1 ++ [(similarIndices sim n θ i).filter (fun j => j ∉ st.2)],
              st.2 ∪ ((similarIndices sim n θ i).filter (fun j => j ∉ st.2)).toFinset) := by
          simp only [greedyStep, h1, if_false, h2, if_true, h3, ite_true, ite_false]
        rw [hstep]
        set group := (similarIndices sim n θ i).filter (fun j => j ∉ st.2) with hgroup
        have hlen : 1 < group.length := h3
        have hsorted : List.Sorted (· < ·) group := by
          have h1 : List.Sorted (· < ·) (List.range n) := List.sorted_lt_range n
          exact (h1.filter _).filter _
        have hlt : ∀ j ∈ group, j < n := by
          intro j hj
          have h1 := (List.mem_filter.mp hj).1
          have h2 := (List.mem_filter.mp h1).1
          exact List.mem_range.mp h2
        have hnotin : ∀ j ∈ group, j ∉ st.1.flatten := by
          intro j hj hflat
          have h2 := (List.mem_filter.mp hj).2
          exact (of_decide_eq_true h2) ((hmem j).mpr hflat)
        refine ⟨?_, ?_, ?_⟩
        · intro g hg
          rcases List.mem_append.mp hg with hg | hg
          · exact hgs g hg
          · rcases List.mem_singleton.mp hg with rfl
            exact ⟨hlen, hsorted, hlt⟩
        · rw [List.flatten_append, List.flatten_cons, List.flatten_nil, List.append_nil]
          exact List.Nodup.append hnd hsorted.nodup
            (fun a ha ha' => hnotin a ha' ha)
        · intro j
          rw [Finset.mem_union, List.mem_toFinset, hmem,
            List.flatten_append, List.flatten_cons, List.flatten_nil, List.append_nil,
            List.mem_append]
      · have hstep : greedyStep sim θ n st i = st := by
          simp only [greedyStep, h1, if_false, h2, if_true, h3, ite_true, ite_false]
        rw [hstep]
        exact ⟨hgs, hnd, hmem⟩
    · have hstep : greedyStep sim θ n st i = st := by
        simp only [greedyStep, h1, if_false, h2, ite_false]
      rw [hstep]
      exact ⟨hgs, hnd, hmem⟩

/-- The greedy fold preserves the grouping invariant. -/
theorem foldl_greedy_good (sim : Nat → Nat → ℚ) (θ : ℚ) {n : Nat}
    (is : List Nat) {st : List (List Nat) × Finset Nat} (hst : GoodState n st) :
    GoodState n (is.foldl (greedyStep sim θ n) st) := by
  induction is generalizing st with
  | nil => exact hst
  | cons i is ih => exact ih (greedyStep_good hst i)

/-- Structural facts about the groups found by `_find_duplicates`: every group
has at least two members, is strictly sorted (hence lists beliefs in input
order), mentions only valid indices, and no index occurs in two groups. -/
theorem findDuplicates_good (simOpt : Option (Nat → Nat → ℚ)) (n : Nat) (θ : ℚ) :
    (∀ g ∈ findDuplicates simOpt n θ,
      1 < g.length ∧ List.Sorted (· < ·) g ∧ ∀ j ∈ g, j < n) ∧
      (findDuplicates simOpt n θ).flatten.Nodup := by
  unfold findDuplicates
  split
  · simp
  · match simOpt with
    | none => simp
    | some sim =>
      have h0 : GoodState n (([], ∅) : List (List Nat) × Finset Nat) := by
        refine ⟨by simp, by simp, by simp⟩
      have h := foldl_greedy_good sim θ (List.range n) h0
      exact ⟨h.1, h.2.1⟩

/-- An index belongs to at most one group of a nodup-flattened group list. -/
theorem group_unique {G : List (List Nat)} (hG : G.flatten.Nodup)
    {g g' : List Nat} {j : Nat} (hg : g ∈ G) (hj : j ∈ g) (hg' : g' ∈ G) (hj' : j ∈ g') :
    g = g' := by
  by_contra hne
  have hpair := (List.nodup_flatten.mp hG).2
  have hsym : Symmetric (fun a b : List Nat => a.Disjoint b) :=
    fun a b h x hx hx' => h hx' hx
  have hdisj : List.Disjoint g g' := hpair.forall hsym hg hg' hne
  exact hdisj hj hj'

/-! ### Helper lemmas: `argmaxIdx` -/

/-- Specification of the fold inside `argmaxIdx`. -/
theorem argmax_fold_spec (ps : List (Nat × ℚ)) (acc : Nat × ℚ) :
    (ps.foldl (fun a p => if a.2 < p.2 then (p.1 + 1, p.2) else a) acc = acc ∨
      ∃ p ∈ ps, ps.foldl (fun a p => if a.2 < p.2 then (p.1 + 1, p.2) else a) acc = (p.1 + 1, p.2)) ∧
      acc.2 ≤ (ps.foldl (fun a p => if a.2 < p.2 then (p.1 + 1, p.2) else a) acc).2 ∧
      ∀ p ∈ ps, p.2 ≤ (ps.foldl (fun a p => if a.2 < p.2 then (p.1 + 1, p.2) else a) acc).2 := by
  induction ps generalizing acc with
  | nil => exact ⟨Or.inl rfl, le_refl _, by simp⟩
  | cons p ps ih =>
    simp only [List.foldl_cons]
    set acc1 := if acc.2 < p.2 then (p.1 + 1, p.2) else acc with hacc1
    obtain ⟨ho, hle, hmax⟩ := ih acc1
    have hacc_le : acc.2 ≤ acc1.2 := by
      rw [hacc1]; split
      · rename_i hlt; exact le_of_lt hlt
      · exact le_refl _
    have hp_le : p.2 ≤ acc1.2 := by
      rw [hacc1]; split
      · exact le_refl _
      · rename_i hnlt; exact le_of_not_lt hnlt
    refine ⟨?_, le_trans hacc_le hle, ?_⟩
    · rcases ho with ho | ⟨q, hq, hfq⟩
      · by_cases hlt : acc.2 < p.2
        · have he : acc1 = (p.1 + 1, p.2) := by rw [hacc1, if_pos hlt]
          exact Or.inr ⟨p, List.mem_cons_self p ps, by rw [ho, he]⟩
        · have he : acc1 = acc := by rw [hacc1, if_neg hlt]
          exact Or.inl (by rw [ho, he])
      · exact Or.inr ⟨q, List.mem_cons_of_mem p hq, hfq⟩
    · intro q hq
      rcases List.mem_cons.mp hq with rfl | hq
      · exact le_trans hp_le hle
      · exact hmax q hq

/-- The index `argmaxIdx` is valid and achieves the maximum of the list. -/
theorem argmaxIdx_spec (l : List ℚ) (h : l ≠ []) :
    argmaxIdx l < l.length ∧ ∀ k, k < l.length → l.getD k 0 ≤ l.getD (argmaxIdx l) 0 := by
  match l with
  | [] => exact absurd rfl h
  | x :: xs =>
    obtain ⟨ho, hle, hmax⟩ := argmax_fold_spec xs.enum (0, x)
    set r := xs.enum.foldl (fun a p => if a.2 < p.2 then (p.1 + 1, p.2) else a) (0, x) with hr
    have hidx : argmaxIdx (x :: xs) = r.1 := rfl
    have hval : r.2 = (x :: xs).getD r.1 0 ∧ r.1 < (x :: xs).length := by
      rcases ho with ho | ⟨p, hp, hfp⟩
      · rw [ho]; exact ⟨rfl, Nat.succ_pos _⟩
      · have h1 : xs[p.1]? = some p.2 := List.mk_mem_enum_iff_getElem?.mp hp
        have h2 : p.1 < xs.length := by
          by_contra hge
          rw [List.getElem?_eq_none (Nat.le_of_not_lt hge)] at h1
          exact Option.noConfusion h1
        have h3 : xs.getD p.1 0 = p.2 := by
          rw [List.getD_eq_getElem xs 0 h2]
          have := List.getElem?_eq_getElem h2
          rw [this] at h1
          exact Option.some.inj h1
        rw [hfp]
        constructor
        · show p.2 = (x :: xs).getD (p.1 + 1) 0
          rw [List.getD_cons_succ, h3]
        · exact Nat.succ_lt_succ h2
    rw [hidx]
    refine ⟨hval.2, ?_⟩
    intro k hk
    rw [← hval.1]
    match k with
    | 0 => exact hle
    | m + 1 =>
      have hm : m < xs.length := Nat.lt_of_succ_lt_succ hk
      have h1 : (m, xs[m]) ∈ xs.enum :=
        List.mk_mem_enum_iff_getElem?.mpr (List.getElem?_eq_getElem hm)
      have h2 := hmax (m, xs[m]) h1
      rw [List.getD_cons_succ, List.getD_eq_getElem xs 0 hm]
      exact h2

/-! ### Helper lemmas: `modifyAt` -/

/-- The update `modifyAt` preserves length. -/
theorem modifyAt_length (f : α → α) (i : Nat) (l : List α) :
    (modifyAt f i l).length = l.length := by
  induction l generalizing i with
  | nil => cases i <;> rfl
  | cons x xs ih =>
    match i with
    | 0 => rfl
    | n + 1 => simp [modifyAt, ih]

/-- Reading the modified position. -/
theorem getD_modifyAt_self (f : α → α) {i : Nat} {l : List α} (h : i < l.length) (d : α) :
    (modifyAt f i l).getD i d = f (l.getD i d) := by
  induction l generalizing i with
  | nil => exact absurd h (by simp)
  | cons x xs ih =>
    match i with
    | 0 => rfl
    | n + 1 => exact ih (Nat.lt_of_succ_lt_succ h)

/-- Reading an untouched position. -/
theorem getD_modifyAt_ne (f : α → α) {i j : Nat} (h : i ≠ j) (l : List α) (d : α) :
    (modifyAt f i l).getD j d = l.getD j d := by
  induction l generalizing i j with
  | nil => cases i <;> rfl
  | cons x xs ih =>
    match i, j with
    | 0, 0 => exact absurd rfl h
    | 0, m + 1 => rfl
    | n + 1, 0 => rfl
    | n + 1, m + 1 => exact ih (fun he => h (congrArg Nat.succ he))

/-- The update `modifyAt` commutes away under a map it does not affect. -/
theorem modifyAt_map {f : α → α} {h : α → β} (hf : ∀ a, h (f a) = h a) (i : Nat) (l : List α) :
    (modifyAt f i l).map h = l.map h := by
  induction l generalizing i with
  | nil => cases i <;> rfl
  | cons x xs ih =>
    match i with
    | 0 => simp [modifyAt, hf]
    | n + 1 => simp [modifyAt, ih]

/-! ### C10 -/

/-- C10 — confirmed. Under the merge policy, the synthetic record of every
duplicate group takes `belief_id`, `statement_text`, `parent_hint`,
`episode_id` and `timestamp` from the group's first member in original input
order (the groups produced by `_find_duplicates` list indices ascending, so
the head is the first member), and resets `parent_belief_id` to `None`; the
merged record is part of the output collection. -/
theorem c10_merge_takes_first (sim : Nat → Nat → ℚ) (θ : ℚ) (df : List Belief)
    (g : List Nat) (hg : g ∈ findDuplicates (some sim) df.length θ)
    (h : Nat) (hh : g.head? = some h) :
    (∀ j ∈ g, h ≤ j) ∧
      (mergedRecord df g).base.belief_id = (df.getD h default).belief_id ∧
      (mergedRecord df g).base.statement_text = (df.getD h default).statement_text ∧
      (mergedRecord df g).base.parent_hint = (df.getD h default).parent_hint ∧
      (mergedRecord df g).base.episode_id = (df.getD h default).episode_id ∧
      (mergedRecord df g).base.timestamp = (df.getD h default).timestamp ∧
      (mergedRecord df g).base.parent_belief_id = none ∧
      mergedRecord df g ∈ (mergeDuplicates df (findDuplicates (some sim) df.length θ)).1 := by
  obtain ⟨hprops, hnd⟩ := findDuplicates_good (some sim) df.length θ
  have hsorted : List.Sorted (· < ·) g := (hprops g hg).2.1
  obtain ⟨t, rfl⟩ : ∃ t, g = h :: t := by
    match g, hh with
    | x :: t, hh => exact ⟨t, by rw [Option.some.inj hh]⟩
  refine ⟨?_, rfl, rfl, rfl, rfl, rfl, rfl, ?_⟩
  · intro j hj
    rcases List.mem_cons.mp hj with rfl | hj
    · exact le_refl j
    · exact le_of_lt ((List.sorted_cons.mp hsorted).1 j hj)
  · exact List.mem_append_right _ (List.mem_map_of_mem (mergedRecord df) hg)

/-- C10 — witness at the concrete pair `dfPair` (group `[0, 1]`, threshold 1,
all-ones similarity). -/
theorem c10_witness :
    (∀ j ∈ [0, 1], 0 ≤ j) ∧
      (mergedRecord dfPair [0, 1]).base.belief_id = (dfPair.getD 0 default).belief_id ∧
      (mergedRecord dfPair [0, 1]).base.statement_text = (dfPair.getD 0 default).statement_text ∧
      (mergedRecord dfPair [0, 1]).base.parent_hint = (dfPair.getD 0 default).parent_hint ∧
      (mergedRecord dfPair [0, 1]).base.episode_id = (dfPair.getD 0 default).episode_id ∧
      (mergedRecord dfPair [0, 1]).base.timestamp = (dfPair.getD 0 default).timestamp ∧
      (mergedRecord dfPair [0, 1]).base.parent_belief_id = none ∧
      mergedRecord dfPair [0, 1] ∈ (mergeDuplicates dfPair (findDuplicates (some simOne) dfPair.length 1)).1 :=
  c10_merge_takes_first simOne 1 dfPair [0, 1] (by decide) 0 rfl

/-! ### C3 machinery: the tagging folds of `_keep_all_with_tags` -/

/-- The tagging loop never changes the number of rows. -/
theorem tagFold_length (c lv : String) (cnt : Nat) (hd : Option Nat) :
    ∀ (is : List Nat) (st : List TaggedBelief × List KeepAllMapRow),
      ((is.foldl (tagStep c lv cnt hd) st).1).length = st.1.length := by
  intro is
  induction is with
  | nil => intro st; rfl
  | cons i is ih =>
    intro st
    rw [List.foldl_cons, ih]
    exact modifyAt_length _ _ _

/-- The tagging loop never changes any base record. -/
theorem tagFold_map_base (c lv : String) (cnt : Nat) (hd : Option Nat) :
    ∀ (is : List Nat) (st : List TaggedBelief × List KeepAllMapRow),
      ((is.foldl (tagStep c lv cnt hd) st).1).map (·.base) = st.1.map (·.base) := by
  intro is
  induction is with
  | nil => intro st; rfl
  | cons i is ih =>
    intro st
    rw [List.foldl_cons, ih]
    show (modifyAt (fun tb => { tb with
      duplicate_group_id := some c
      reinforcement_levels := some lv
      reinforcement_count := cnt }) i st.1).map (·.base) = st.1.map (·.base)
    apply modifyAt_map
    intro a
    rfl

/-- Rows outside the iterated index list are untouched by the tagging loop. -/
theorem tagFold_getD_not_mem (c lv : String) (cnt : Nat) (hd : Option Nat)
    (d : TaggedBelief) :
    ∀ (is : List Nat) (st : List TaggedBelief × List KeepAllMapRow) (j : Nat), j ∉ is →
      ((is.foldl (tagStep c lv cnt hd) st).1).getD j d = st.1.getD j d := by
  intro is
  induction is with
  | nil => intro st j _; rfl
  | cons i is ih =>
    intro st j hj
    rw [List.foldl_cons, ih _ _ (fun h => hj (List.mem_cons_of_mem i h))]
    exact getD_modifyAt_ne _ (fun h => hj (by rw [← h]; exact List.mem_cons_self i is)) _ _

/-- Rows inside the iterated index list end up with the three constants
written, their base untouched. -/
theorem tagFold_getD_mem (c lv : String) (cnt : Nat) (hd : Option Nat) :
    ∀ (is : List Nat) (st : List TaggedBelief × List KeepAllMapRow) (j : Nat), j ∈ is →
      j < st.1.length →
      ((is.foldl (tagStep c lv cnt hd) st).1).getD j default =
        ⟨(st.1.getD j default).base, some c, some lv, cnt⟩ := by
  intro is
  induction is with
  | nil => intro st j hj; exact absurd hj (List.not_mem_nil j)
  | cons i is ih =>
    intro st j hj hlt
    rw [List.foldl_cons]
    by_cases hji : j ∈ is
    · have hlt1 : j < ((tagStep c lv cnt hd st i).1).length := by
        show j < (modifyAt _ i st.1).length
        rw [modifyAt_length]; exact hlt
      rw [ih _ j hji hlt1]
      congr 1
      show ((modifyAt _ i st.1).getD j default).base = (st.1.getD j default).base
      by_cases hij : i = j
      · subst hij
        rw [getD_modifyAt_self _ hlt]
      · rw [getD_modifyAt_ne _ hij]
    · have hji2 : j = i := by
        rcases List.mem_cons.mp hj with h | h
        · exact h
        · exact absurd h hji
      subst hji2
      rw [tagFold_getD_not_mem c lv cnt hd default is _ j hji]
      show (modifyAt _ j st.1).getD j default = _
      rw [getD_modifyAt_self _ hlt]

/-- Tagging a group preserves row count. -/
theorem tagGroup_length (gid : Nat) (g : List Nat)
    (st : List TaggedBelief × List KeepAllMapRow) :
    ((tagGroup gid g st).1).length = st.1.length := tagFold_length _ _ _ _ g st

/-- Tagging a group preserves every base record. -/
theorem tagGroup_map_base (gid : Nat) (g : List Nat)
    (st : List TaggedBelief × List KeepAllMapRow) :
    ((tagGroup gid g st).1).map (·.base) = st.1.map (·.base) := tagFold_map_base _ _ _ _ g st

/-- Tagging a group leaves rows outside the group untouched. -/
theorem tagGroup_getD_not_mem (gid : Nat) (g : List Nat)
    (st : List TaggedBelief × List KeepAllMapRow) (d : TaggedBelief) (j : Nat) (hj : j ∉ g) :
    ((tagGroup gid g st).1).getD j d = st.1.getD j d :=
  tagFold_getD_not_mem _ _ _ _ d g st j hj

/-- If every base of `st` agrees with `df`, reading any row's base through
`getD` agrees with `df` (both sides default outside the range). -/
theorem base_of_map_eq {st : List TaggedBelief} {df : List Belief}
    (h : st.map (·.base) = df) (k : Nat) :
    (st.getD k default).base = df.getD k default := by
  have hlen : st.length = df.length := by rw [← h, List.length_map]
  by_cases hk : k < st.length
  · calc (st.getD k default).base
        = (st.map (·.base)).getD k ((default : TaggedBelief).base) :=
          (List.getD_map st (default : TaggedBelief) (·.base)).symm
      _ = df.getD k default := by rw [h]; rfl
  · have h1 : st.length ≤ k := Nat.le_of_not_lt hk
    have h2 : df.length ≤ k := hlen ▸ h1
    rw [List.getD_eq_default _ _ h1, List.getD_eq_default _ _ h2]
    rfl

/-- The initial tagged frame of `_keep_all_with_tags` has the input as its
base rows. -/
theorem map_base_init (df : List Belief) :
    (df.map (fun b => (⟨b, none, none, 1⟩ : TaggedBelief))).map (·.base) = df := by
  induction df with
  | nil => rfl
  | cons b bs ih => rw [List.map_cons, List.map_cons, ih]

/-- The outer fold of `_keep_all_with_tags` keeps bases equal to `df`. -/
theorem keepAllFold_map_base (df : List Belief) :
    ∀ (en : List (Nat × List Nat)) (st : List TaggedBelief × List KeepAllMapRow),
      st.1.map (·.base) = df →
      ((en.foldl (fun s q => tagGroup q.1 q.2 s) st).1).map (·.base) = df := by
  intro en
  induction en with
  | nil => intro st h; exact h
  | cons q en ih =>
    intro st h
    rw [List.foldl_cons]
    exact ih _ (by rw [tagGroup_map_base]; exact h)

/-- Rows in none of the folded groups are untouched by the outer fold. -/
theorem keepAllFold_not_mem (d : TaggedBelief) :
    ∀ (en : List (Nat × List Nat)) (st : List TaggedBelief × List KeepAllMapRow) (j : Nat),
      (∀ q ∈ en, j ∉ q.2) →
      ((en.foldl (fun s q => tagGroup q.1 q.2 s) st).1).getD j d = st.1.getD j d := by
  intro en
  induction en with
  | nil => intro st j _; rfl
  | cons q en ih =>
    intro st j hj
    rw [List.foldl_cons, ih _ j (fun q' hq' => hj q' (List.mem_cons_of_mem q hq')),
      tagGroup_getD_not_mem _ _ _ _ _ (hj q (List.mem_cons_self q en))]

/-- Main characterization of the outer fold of `_keep_all_with_tags`: a row
in a folded group receives that group's id string, size and sorted level
list. -/
theorem keepAllFold_mem (df : List Belief) :
    ∀ (en : List (Nat × List Nat)) (st : List TaggedBelief × List KeepAllMapRow)
      (p : Nat × List Nat), p ∈ en →
      en.Pairwise (fun a b => a.2.Disjoint b.2) →
      st.1.map (·.base) = df →
      ∀ j ∈ p.2, j < df.length →
      ((en.foldl (fun s q => tagGroup q.1 q.2 s) st).1).getD j default =
        ⟨df.getD j default, some (dupGroupId p.1),
          some (levelsJoined (p.2.map (fun k => (df.getD k default).discovery_level))),
          p.2.length⟩ := by
  intro en
  induction en with
  | nil => intro st p hp; exact absurd hp (List.not_mem_nil p)
  | cons q en ih =>
    intro st p hp hpw hbase j hj hjlt
    have hlen : st.1.length = df.length := by
      rw [← hbase, List.length_map]
    rw [List.foldl_cons]
    rcases List.mem_cons.mp hp with rfl | hp
    · -- p is the group processed now; the rest of the fold leaves j alone
      have hrest : ∀ q' ∈ en, j ∉ q'.2 := by
        intro q' hq' hjq'
        exact (List.pairwise_cons.mp hpw).1 q' hq' hj hjq'
      rw [keepAllFold_not_mem default en _ j hrest]
      show ((p.2.foldl (tagStep (dupGroupId p.1) _ p.2.length p.2.head?) st).1).getD j default = _
      rw [tagFold_getD_mem _ _ _ _ p.2 st j hj (hlen ▸ hjlt)]
      rw [base_of_map_eq hbase j]
      congr 2
      exact congrArg levelsJoined (List.map_congr_left
        (fun k _ => congrArg Belief.discovery_level (base_of_map_eq hbase k)))
    · exact ih _ p hp (List.pairwise_cons.mp hpw).2
        (by rw [tagGroup_map_base]; exact hbase) j hj hjlt

/-- C3 — confirmed. Under the `keep_all` policy every original record
survives (the output's base rows are exactly the input); every member of a
duplicate group carries that group's `duplicate_group_id`, a
`reinforcement_count` equal to the group size and the comma-joined sorted
list of the group's discovery levels; ungrouped rows keep
`reinforcement_count = 1` with no group id; consequently summing one
`reinforcement_count` per group over the groups equals the total number of
grouped records (each grouped record counted once: the flattened group list
is duplicate-free). -/
theorem c3_keep_all (sim : Nat → Nat → ℚ) (θ : ℚ) (df : List Belief)
    (G : List (List Nat)) (hG : G = findDuplicates (some sim) df.length θ) :
    ((keepAllWithTags df G).1).map (·.base) = df ∧
      (∀ gid g, G[gid]? = some g → ∀ j ∈ g,
        ((keepAllWithTags df G).1).getD j default =
          ⟨df.getD j default, some (dupGroupId gid),
            some (levelsJoined (g.map (fun k => (df.getD k default).discovery_level))),
            g.length⟩) ∧
      (∀ j, j < df.length → (∀ g ∈ G, j ∉ g) →
        ((keepAllWithTags df G).1).getD j default = ⟨df.getD j default, none, none, 1⟩) ∧
      G.flatten.Nodup ∧
      (G.map (fun g =>
        (((keepAllWithTags df G).1).getD (g.headD 0) default).reinforcement_count)).sum =
        G.flatten.length := by
  obtain ⟨hprops, hnd⟩ := findDuplicates_good (some sim) df.length θ
  rw [← hG] at hprops hnd
  have hdisj : G.Pairwise (fun a b => a.Disjoint b) := (List.nodup_flatten.mp hnd).2
  have hbase0 : (df.map (fun b => (⟨b, none, none, 1⟩ : TaggedBelief))).map (·.base) = df :=
    map_base_init df
  have henum_disj : G.enum.Pairwise (fun a b => a.2.Disjoint b.2) := by
    have h1 : G.enum.map Prod.snd = G := List.enum_map_snd G
    rw [← h1] at hdisj
    exact (List.pairwise_map.mp hdisj)
  have hmem_char : ∀ gid g, G[gid]? = some g → ∀ j ∈ g,
      ((keepAllWithTags df G).1).getD j default =
        ⟨df.getD j default, some (dupGroupId gid),
          some (levelsJoined (g.map (fun k => (df.getD k default).discovery_level))),
          g.length⟩ := by
    intro gid g hgid j hj
    have hpen : (gid, g) ∈ G.enum := List.mk_mem_enum_iff_getElem?.mpr hgid
    have hgG : g ∈ G := by
      have := List.getElem?_eq_some_iff.mp hgid
      obtain ⟨hlt, he⟩ := this
      exact he ▸ List.getElem_mem hlt
    have hjlt : j < df.length := (hprops g hgG).2.2 j hj
    exact keepAllFold_mem df G.enum _ (gid, g) hpen henum_disj hbase0 j hj hjlt
  refine ⟨keepAllFold_map_base df G.enum _ hbase0, hmem_char, ?_, hnd, ?_⟩
  · intro j hjlt hnot
    have hnot' : ∀ q ∈ G.enum, j ∉ q.2 := by
      intro q hq
      have : q.2 ∈ G := by
        have h1 : G.enum.map Prod.snd = G := List.enum_map_snd G
        rw [← h1]
        exact List.mem_map_of_mem Prod.snd hq
      exact hnot q.2 this
    have h1 : ((keepAllWithTags df G).1).getD j default =
        (df.map (fun b => (⟨b, none, none, 1⟩ : TaggedBelief))).getD j default :=
      keepAllFold_not_mem default G.enum _ j hnot'
    have hjlt2 : j < (df.map (fun b => (⟨b, none, none, 1⟩ : TaggedBelief))).length := by
      rw [List.length_map]; exact hjlt
    rw [h1, List.getD_eq_getElem _ _ hjlt2, List.getElem_map]
    rw [List.getD_eq_getElem df default hjlt]
  · have hcong : ∀ g ∈ G,
        (((keepAllWithTags df G).1).getD (g.headD 0) default).reinforcement_count = g.length := by
      intro g hg
      obtain ⟨gid, hglt, hgid⟩ := List.mem_iff_getElem.mp hg
      have hne : g ≠ [] := by
        intro h
        have := (hprops g hg).1
        rw [h] at this
        exact absurd this (by decide)
      have hhd : g.headD 0 ∈ g := by
        match g, hne with
        | x :: t, _ => exact List.mem_cons_self x t
      have := hmem_char gid g (by rw [List.getElem?_eq_getElem hglt, hgid]) (g.headD 0) hhd
      rw [this]
    rw [List.map_congr_left hcong, List.length_flatten]

/-- C3 — witness at the concrete pair `dfPair` (one duplicate group `[0, 1]`,
threshold 1, all-ones similarity). -/
theorem c3_witness :
    ((keepAllWithTags dfPair [[0, 1]]).1).map (·.base) = dfPair ∧
      (∀ gid g, ([[0, 1]] : List (List Nat))[gid]? = some g → ∀ j ∈ g,
        ((keepAllWithTags dfPair [[0, 1]]).1).getD j default =
          ⟨dfPair.getD j default, some (dupGroupId gid),
            some (levelsJoined (g.map (fun k => (dfPair.getD k default).discovery_level))),
            g.length⟩) ∧
      (∀ j, j < dfPair.length → (∀ g ∈ ([[0, 1]] : List (List Nat)), j ∉ g) →
        ((keepAllWithTags dfPair [[0, 1]]).1).getD j default =
          ⟨dfPair.getD j default, none, none, 1⟩) ∧
      ([[0, 1]] : List (List Nat)).flatten.Nodup ∧
      (([[0, 1]] : List (List Nat)).map (fun g =>
        (((keepAllWithTags dfPair [[0, 1]]).1).getD (g.headD 0) default).reinforcement_count)).sum =
        ([[0, 1]] : List (List Nat)).flatten.length :=
  c3_keep_all simOne 1 dfPair [[0, 1]] (by decide)

/-! ### C2 machinery: `_keep_best_fit` -/

/-- Membership in the removal set of `_keep_best_fit`. -/
theorem removedByBest_mem (df : List Belief) (G : List (List Nat)) (j : Nat) :
    j ∈ removedByBest df G ↔ ∃ g ∈ G, j ∈ g ∧ j ≠ bestIdxOf df g := by
  unfold removedByBest
  rw [mem_foldl_union]
  simp only [Finset.not_mem_empty, false_or, List.mem_toFinset, List.mem_filter,
    decide_eq_true_eq]

/-- Reading a group's score list at a valid position. -/
theorem getD_groupScores (df : List Belief) (g : List Nat) (k : Nat) (hk : k < g.length) :
    (groupScores df g).getD k 0 = bestFitScore (df.getD (g.getD k 0) default) := by
  unfold groupScores
  rw [List.getD_eq_getElem _ 0 (by rw [List.length_map]; exact hk), List.getElem_map,
    List.getD_eq_getElem g 0 hk]

/-- Membership in the surviving index list of `_keep_best_fit`. -/
theorem keptIndices_mem (df : List Belief) (n : Nat) (G : List (List Nat)) (j : Nat) :
    j ∈ keptIndices df n G ↔ j < n ∧ ¬∃ g ∈ G, j ∈ g ∧ j ≠ bestIdxOf df g := by
  unfold keptIndices
  rw [List.mem_filter, List.mem_range]
  simp only [decide_eq_true_eq, removedByBest_mem]

/-- C2 — confirmed. Under the `keep_best` policy, for every duplicate group
found by `_find_duplicates` exactly one member survives — the group member
whose index `_keep_best_fit` selects by `argmax` of
`conviction_score * 1/(1 + |discovery_level - (11 - importance)|)`; that
member attains the maximal score of the group; the output collection is the
input restricted to the kept indices; and every group member (in particular
every removed one) gets a mapping row naming the kept belief's id. -/
theorem c2_keep_best (sim : Nat → Nat → ℚ) (θ : ℚ) (df : List Belief)
    (G : List (List Nat)) (g : List Nat)
    (hG : G = findDuplicates (some sim) df.length θ) (hg : g ∈ G) :
    bestIdxOf df g ∈ g ∧
      (∀ j ∈ g, bestFitScore (df.getD j default) ≤
        bestFitScore (df.getD (bestIdxOf df g) default)) ∧
      (∀ j ∈ g, (j ∈ keptIndices df df.length G ↔ j = bestIdxOf df g)) ∧
      (keepBestFit df G).1 = (keptIndices df df.length G).map (fun j => df.getD j default) ∧
      (∀ j ∈ g, ∃ row ∈ (keepBestFit df G).2,
        row.belief_id = (df.getD j default).belief_id ∧
        row.kept_belief_id = (df.getD (bestIdxOf df g) default).belief_id ∧
        row.is_primary = decide (j = bestIdxOf df g)) := by
  obtain ⟨hprops, hnd⟩ := findDuplicates_good (some sim) df.length θ
  rw [← hG] at hprops hnd
  have hglen : 1 < g.length := (hprops g hg).1
  have hsnn : groupScores df g ≠ [] := by
    intro h
    have h1 : (groupScores df g).length = g.length := List.length_map g _
    rw [h] at h1
    simp only [List.length_nil] at h1
    omega
  obtain ⟨hamax, hmax⟩ := argmaxIdx_spec (groupScores df g) hsnn
  have hslen : (groupScores df g).length = g.length := List.length_map g _
  have hbestlt : argmaxIdx (groupScores df g) < g.length := hslen ▸ hamax
  have hbest_mem : bestIdxOf df g ∈ g := by
    unfold bestIdxOf
    rw [List.getD_eq_getElem g 0 hbestlt]
    exact List.getElem_mem hbestlt
  have hbest_score : bestFitScore (df.getD (bestIdxOf df g) default) =
      (groupScores df g).getD (argmaxIdx (groupScores df g)) 0 :=
    (getD_groupScores df g _ hbestlt).symm
  refine ⟨hbest_mem, ?_, ?_, rfl, ?_⟩
  · intro j hj
    obtain ⟨k, hk, hkj⟩ := List.mem_iff_getElem.mp hj
    have hkg : g.getD k 0 = j := by rw [List.getD_eq_getElem g 0 hk, hkj]
    have hkscore : (groupScores df g).getD k 0 = bestFitScore (df.getD j default) := by
      rw [getD_groupScores df g k hk, hkg]
    rw [← hkscore, hbest_score]
    exact hmax k (by rw [hslen]; exact hk)
  · intro j hj
    have hjlt : j < df.length := (hprops g hg).2.2 j hj
    rw [keptIndices_mem]
    constructor
    · rintro ⟨-, hnr⟩
      by_contra hne
      exact hnr ⟨g, hg, hj, hne⟩
    · rintro rfl
      refine ⟨hjlt, ?_⟩
      rintro ⟨g', hg', hjg', hne⟩
      have : g = g' := group_unique hnd hg hj hg' hjg'
      rw [← this] at hne
      exact hne rfl
  · intro j hj
    obtain ⟨gid, hglt, hgelem⟩ := List.mem_iff_getElem.mp hg
    have hpen : (gid, g) ∈ G.enum :=
      List.mk_mem_enum_iff_getElem?.mpr (by rw [List.getElem?_eq_getElem hglt, hgelem])
    refine ⟨{ belief_id := (df.getD j default).belief_id
              duplicate_group_id := dupGroupId gid
              kept_belief_id := (df.getD (bestIdxOf df g) default).belief_id
              is_primary := decide (j = bestIdxOf df g)
              score := (groupScores df g).getD (g.findIdx (fun k => k = j)) 0 }, ?_, rfl, rfl, rfl⟩
    show _ ∈ (G.enum.map (fun p => bestMapRows df p.1 p.2)).flatten
    refine List.mem_flatten.mpr ⟨bestMapRows df gid g, List.mem_map_of_mem _ hpen, ?_⟩
    exact List.mem_map_of_mem _ hj

/-- C2 — witness at the concrete pair `dfPair` (one duplicate group `[0, 1]`,
threshold 1, all-ones similarity). -/
theorem c2_witness :
    bestIdxOf dfPair [0, 1] ∈ [0, 1] ∧
      (∀ j ∈ [0, 1], bestFitScore (dfPair.getD j default) ≤
        bestFitScore (dfPair.getD (bestIdxOf dfPair [0, 1]) default)) ∧
      (∀ j ∈ [0, 1],
        (j ∈ keptIndices dfPair dfPair.length [[0, 1]] ↔ j = bestIdxOf dfPair [0, 1])) ∧
      (keepBestFit dfPair [[0, 1]]).1 =
        (keptIndices dfPair dfPair.length [[0, 1]]).map (fun j => dfPair.getD j default) ∧
      (∀ j ∈ [0, 1], ∃ row ∈ (keepBestFit dfPair [[0, 1]]).2,
        row.belief_id = (dfPair.getD j default).belief_id ∧
        row.kept_belief_id = (dfPair.getD (bestIdxOf dfPair [0, 1]) default).belief_id ∧
        row.is_primary = decide (j = bestIdxOf dfPair [0, 1])) :=
  c2_keep_best simOne 1 dfPair [[0, 1]] [0, 1] (by decide) (by decide)

/-! ### C9 -/

/-- C9 — counterexample. On the concrete linked collection `dfLinked`
(two beliefs, one with a parent), `get_hierarchy_stats` reports
`connectivity = 50`, not the ratio `has_parent / total = 1/2` the claim
states: the code multiplies the ratio by 100. -/
theorem c9_counterexample :
    ∃ s, getHierarchyStats 10 dfLinked = some s ∧
      s.connectivity ≠ (s.has_parent : ℚ) / (s.total_beliefs : ℚ) := by
  cases hs : getHierarchyStats 10 dfLinked with
  | none =>
    have hS : (getHierarchyStats 10 dfLinked).isSome = true := by decide
    rw [hs] at hS
    exact Bool.noConfusion hS
  | some s =>
    refine ⟨s, rfl, ?_⟩
    have hm : (dfLinked.map (·.belief_id)).mapM
        (fun bid => (getDepth dfLinked 10 bid []).map (·.1)) = some [0, 1] := by decide
    simp only [getHierarchyStats, hm] at hs
    rw [← Option.some.inj hs]
    show (if 0 < dfLinked.length then
        (((dfLinked.filter (fun b => b.parent_belief_id.isSome)).length : ℚ) /
          (dfLinked.length : ℚ)) * 100 else 0) ≠
      ((dfLinked.filter (fun b => b.parent_belief_id.isSome)).length : ℚ) /
        (dfLinked.length : ℚ)
    have hcount : (dfLinked.filter (fun b => b.parent_belief_id.isSome)).length = 1 := by decide
    have hlen : dfLinked.length = 2 := by decide
    rw [hcount, hlen, if_pos (by norm_num)]
    norm_num

/-- C9 — amended. For every non-empty linked collection on which the depth
recursion terminates, the reported `connectivity` equals
`has_parent / total * 100` — the connectivity ratio expressed as a
percentage, not the bare ratio. -/
theorem c9_amended (fuel : Nat) (df : List Belief) (s : HierarchyStats)
    (h : getHierarchyStats fuel df = some s) (hne : df ≠ []) :
    s.connectivity = (s.has_parent : ℚ) / (s.total_beliefs : ℚ) * 100 := by
  cases hm : (df.map (·.belief_id)).mapM
      (fun bid => (getDepth df fuel bid []).map (·.1)) with
  | none =>
    simp only [getHierarchyStats, hm] at h
    exact Option.noConfusion h
  | some depths =>
    simp only [getHierarchyStats, hm] at h
    have hpos : 0 < df.length := List.length_pos.mpr hne
    rw [← Option.some.inj h]
    show (if 0 < df.length then
        (((df.filter (fun b => b.parent_belief_id.isSome)).length : ℚ) /
          (df.length : ℚ)) * 100 else 0) =
      ((df.filter (fun b => b.parent_belief_id.isSome)).length : ℚ) /
        (df.length : ℚ) * 100
    rw [if_pos hpos]

/-- C9 — witness for the amended theorem at the concrete linked collection
`dfLinked` with recursion bound 10. -/
theorem c9_witness :
    ∃ s, getHierarchyStats 10 dfLinked = some s ∧
      s.connectivity = (s.has_parent : ℚ) / (s.total_beliefs : ℚ) * 100 := by
  cases hs : getHierarchyStats 10 dfLinked with
  | none =>
    have hS : (getHierarchyStats 10 dfLinked).isSome = true := by decide
    rw [hs] at hS
    exact Bool.noConfusion hS
  | some s => exact ⟨s, rfl, c9_amended 10 dfLinked s hs (by decide)⟩

/-! ### C1 machinery: `_find_parent` reads no parent references -/

/-- Projections through `stripParent` agree on strip-equal lists. -/
theorem map_proj_of_strip {c1 c2 : List Belief} (h : c1.map stripParent = c2.map stripParent)
    {β : Type} (f : Belief → β) (hf : ∀ x, f (stripParent x) = f x) : c1.map f = c2.map f := by
  calc c1.map f = (c1.map stripParent).map f := by
        rw [List.map_map]
        exact List.map_congr_left (fun x _ => (hf x).symm)
    _ = (c2.map stripParent).map f := by rw [h]
    _ = c2.map f := by
        rw [List.map_map]
        exact List.map_congr_left (fun x _ => hf x)

/-- Reading through `stripParent` agrees on strip-equal lists. -/
theorem getD_strip_eq {l1 l2 : List Belief} (h : l1.map stripParent = l2.map stripParent)
    (k : Nat) : stripParent (l1.getD k default) = stripParent (l2.getD k default) := by
  calc stripParent (l1.getD k default)
      = (l1.map stripParent).getD k (stripParent default) :=
        (List.getD_map l1 default stripParent).symm
    _ = (l2.map stripParent).getD k (stripParent default) := by rw [h]
    _ = stripParent (l2.getD k default) := List.getD_map l2 default stripParent

/-- The filtered enumeration underlying `linkCandidates` is determined by the
strip projection, uniformly in the enumeration start. -/
theorem enumFrom_filter_strip (i : Nat) (imp : Int) :
    ∀ (l1 l2 : List Belief) (k : Nat), l1.map stripParent = l2.map stripParent →
      ((List.enumFrom k l1).filter (fun p => p.1 ≠ i ∧ p.2.importance < imp)).map
          (fun p => stripParent p.2) =
        ((List.enumFrom k l2).filter (fun p => p.1 ≠ i ∧ p.2.importance < imp)).map
          (fun p => stripParent p.2) := by
  intro l1
  induction l1 with
  | nil =>
    intro l2 k h
    cases l2 with
    | nil => rfl
    | cons b bs => exact absurd h (by simp)
  | cons a as ih =>
    intro l2 k h
    cases l2 with
    | nil => exact absurd h (by simp)
    | cons b bs =>
      simp only [List.map_cons, List.cons.injEq] at h
      obtain ⟨hab, htail⟩ := h
      have himp0 := congrArg Belief.importance hab
      have himp : a.importance = b.importance := himp0
      show (((k, a) :: List.enumFrom (k + 1) as).filter
          (fun p => p.1 ≠ i ∧ p.2.importance < imp)).map (fun p => stripParent p.2) =
        (((k, b) :: List.enumFrom (k + 1) bs).filter
          (fun p => p.1 ≠ i ∧ p.2.importance < imp)).map (fun p => stripParent p.2)
      simp only [List.filter_cons]
      dsimp only
      rw [himp]
      split
      · rw [List.map_cons, List.map_cons, ih bs (k + 1) htail]
        show stripParent a :: _ = stripParent b :: _
        rw [hab]
      · exact ih bs (k + 1) htail

/-- The candidate list of `_find_parent` is determined by the strip
projection of the frame. -/
theorem linkCandidates_strip {l1 l2 : List Belief}
    (h : l1.map stripParent = l2.map stripParent) (i : Nat) :
    (linkCandidates l1 i).map stripParent = (linkCandidates l2 i).map stripParent := by
  have himp0 := congrArg Belief.importance (getD_strip_eq h i)
  have himp : (l1.getD i default).importance = (l2.getD i default).importance := himp0
  show ((l1.enum.filter
      (fun p => p.1 ≠ i ∧ p.2.importance < (l1.getD i default).importance)).map (·.2)).map
        stripParent =
    ((l2.enum.filter
      (fun p => p.1 ≠ i ∧ p.2.importance < (l2.getD i default).importance)).map (·.2)).map
        stripParent
  rw [← himp, List.map_map, List.map_map]
  exact enumFrom_filter_strip i (l1.getD i default).importance l1 l2 0 h

/-- Searching through `stripParent` agrees on strip-equal lists, for a
predicate that ignores the parent reference. -/
theorem find?_strip (q : Belief → Bool) (hq : ∀ x, q (stripParent x) = q x) :
    ∀ (c1 c2 : List Belief), c1.map stripParent = c2.map stripParent →
      Option.map stripParent (c1.find? q) = Option.map stripParent (c2.find? q) := by
  intro c1
  induction c1 with
  | nil =>
    intro c2 h
    cases c2 with
    | nil => rfl
    | cons b bs => exact absurd h (by simp)
  | cons a as ih =>
    intro c2 h
    cases c2 with
    | nil => exact absurd h (by simp)
    | cons b bs =>
      simp only [List.map_cons, List.cons.injEq] at h
      obtain ⟨hab, htail⟩ := h
      have hq2 : q a = q b := by rw [← hq a, hab, hq b]
      by_cases hqa : q a = true
      · rw [List.find?_cons_of_pos _ hqa, List.find?_cons_of_pos _ (by rw [← hq2]; exact hqa)]
        show some (stripParent a) = some (stripParent b)
        rw [hab]
      · have hqb : ¬ q b = true := by rw [← hq2]; exact hqa
        rw [List.find?_cons_of_neg _ hqa, List.find?_cons_of_neg _ hqb]
        exact ih bs htail

/-- The scan `_find_parent` reads only importance, statement text and belief id —
never a parent reference — so it is invariant under parent updates of the
frame it scans. -/
theorem findParent_strip (simFn : String → List String → Option (List ℚ)) (θ : ℚ)
    (hint : String) {l1 l2 : List Belief}
    (h : l1.map stripParent = l2.map stripParent) (i : Nat) :
    findParent simFn θ hint l1 i = findParent simFn θ hint l2 i := by
  have hc : (linkCandidates l1 i).map stripParent = (linkCandidates l2 i).map stripParent :=
    linkCandidates_strip h i
  have hlen : (linkCandidates l1 i).length = (linkCandidates l2 i).length := by
    have := congrArg List.length hc
    simpa using this
  have hempty : (linkCandidates l1 i).isEmpty = (linkCandidates l2 i).isEmpty := by
    cases hc1 : linkCandidates l1 i with
    | nil =>
      cases hc2 : linkCandidates l2 i with
      | nil => rfl
      | cons y ys => rw [hc1, hc2] at hlen; simp at hlen
    | cons x xs =>
      cases hc2 : linkCandidates l2 i with
      | nil => rw [hc1, hc2] at hlen; simp at hlen
      | cons y ys => rfl
  have htexts : (linkCandidates l1 i).map (·.statement_text) =
      (linkCandidates l2 i).map (·.statement_text) :=
    map_proj_of_strip hc (·.statement_text) (fun _ => rfl)
  have hid : ∀ k, ((linkCandidates l1 i).getD k default).belief_id =
      ((linkCandidates l2 i).getD k default).belief_id := by
    intro k
    have h0 := congrArg Belief.belief_id (getD_strip_eq hc k)
    exact h0
  simp only [findParent]
  rw [← hempty, ← htexts]
  by_cases he : (linkCandidates l1 i).isEmpty
  · simp only [he, if_true]
  · simp only [he, if_false]
    cases hs : simFn hint ((linkCandidates l1 i).map (·.statement_text)) with
    | some sims => simp only [hid]
    | none =>
      have hfind := find?_strip
        (fun c => containsSub (pyLower c.statement_text) (pyLower hint)) (fun _ => rfl)
        (linkCandidates l1 i) (linkCandidates l2 i) hc
      cases h1 : (linkCandidates l1 i).find?
          (fun c => containsSub (pyLower c.statement_text) (pyLower hint)) with
      | some c =>
        cases h2 : (linkCandidates l2 i).find?
            (fun c => containsSub (pyLower c.statement_text) (pyLower hint)) with
        | some c' =>
          rw [h1, h2] at hfind
          have hscc : stripParent c = stripParent c' := by
            simpa using hfind
          have h0 := congrArg Belief.belief_id hscc
          have hbid : c.belief_id = c'.belief_id := h0
          show some c.belief_id = some c'.belief_id
          rw [hbid]
        | none =>
          rw [h1, h2] at hfind
          exact absurd hfind (by simp)
      | none =>
        cases h2 : (linkCandidates l2 i).find?
            (fun c => containsSub (pyLower c.statement_text) (pyLower hint)) with
        | some c' =>
          rw [h1, h2] at hfind
          exact absurd hfind (by simp)
        | none => rfl

/-! ### C1 machinery: the linking fold -/

/-- One linking step never changes the strip projection of the frame. -/
theorem assignStep_strip (simFn : String → List String → Option (List ℚ)) (θ : ℚ)
    (cur : List Belief) (idx : Nat) :
    (assignStep simFn θ cur idx).map stripParent = cur.map stripParent := by
  simp only [assignStep]
  split
  · rfl
  · split
    · split
      · rfl
      · apply modifyAt_map
        intro a
        rfl
    · rfl

/-- One linking step touches only its own row. -/
theorem assignStep_getD_ne (simFn : String → List String → Option (List ℚ)) (θ : ℚ)
    (cur : List Belief) (idx j : Nat) (d : Belief) (h : idx ≠ j) :
    (assignStep simFn θ cur idx).getD j d = cur.getD j d := by
  simp only [assignStep]
  split
  · rfl
  · split
    · split
      · rfl
      · exact getD_modifyAt_ne _ h _ _
    · rfl

/-- The linking fold never changes the strip projection of the frame. -/
theorem assignFold_strip (simFn : String → List String → Option (List ℚ)) (θ : ℚ) :
    ∀ (is : List Nat) (cur : List Belief),
      ((is.foldl (assignStep simFn θ) cur)).map stripParent = cur.map stripParent := by
  intro is
  induction is with
  | nil => intro cur; rfl
  | cons i is ih =>
    intro cur
    rw [List.foldl_cons, ih, assignStep_strip]

/-- Rows whose index is not iterated are untouched by the linking fold. -/
theorem assignFold_getD_not_mem (simFn : String → List String → Option (List ℚ)) (θ : ℚ)
    (d : Belief) : ∀ (is : List Nat) (cur : List Belief) (j : Nat), j ∉ is →
      ((is.foldl (assignStep simFn θ) cur)).getD j d = cur.getD j d := by
  intro is
  induction is with
  | nil => intro cur j _; rfl
  | cons i is ih =>
    intro cur j hj
    rw [List.foldl_cons, ih _ j (fun h => hj (List.mem_cons_of_mem i h)),
      assignStep_getD_ne _ _ _ _ _ _ (fun h => hj (by rw [← h]; exact List.mem_cons_self i is))]

/-- Splitting `range n` around an interior index. -/
theorem range_split {n i : Nat} (h : i < n) :
    List.range n = List.range' 0 i ++ i :: List.range' (i + 1) (n - (i + 1)) := by
  have h2 := List.range'_append 0 i (n - i) 1
  rw [Nat.one_mul, Nat.zero_add] at h2
  have h3 : n - i + i = n := Nat.sub_add_cancel (Nat.le_of_lt h)
  rw [h3] at h2
  rw [List.range_eq_range', ← h2]
  have h4 : n - i = (n - (i + 1)) + 1 := by omega
  rw [h4]
  rfl

/-- Characterization of the linking pass at one row: the outcome of
`link_beliefs` at row `i` is decided by `_find_parent` applied to the
original frame. -/
theorem assignParents_getD (simFn : String → List String → Option (List ℚ)) (θ : ℚ)
    (df : List Belief) (i : Nat) (hi : i < df.length) :
    (assignParents simFn θ df).getD i default =
      (if pyStrip (df.getD i default).parent_hint = "" then df.getD i default
       else
         match findParent simFn θ (df.getD i default).parent_hint df i with
         | some pid =>
           if pid = "" then df.getD i default
           else { df.getD i default with parent_belief_id := some pid }
         | none => df.getD i default) := by
  unfold assignParents
  rw [range_split hi, List.foldl_append, List.foldl_cons]
  set cur := (List.range' 0 i).foldl (assignStep simFn θ) df with hcur
  have hnotB : i ∉ List.range' (i + 1) (df.length - (i + 1)) := by
    intro hmem
    have := List.mem_range'_1.mp hmem
    omega
  have hnotA : i ∉ List.range' 0 i := by
    intro hmem
    have := List.mem_range'_1.mp hmem
    omega
  rw [assignFold_getD_not_mem simFn θ default _ _ i hnotB]
  have hcurI : cur.getD i default = df.getD i default :=
    assignFold_getD_not_mem simFn θ default _ df i hnotA
  have hstrip : cur.map stripParent = df.map stripParent := assignFold_strip simFn θ _ df
  have hlenc : cur.length = df.length := by
    have := congrArg List.length hstrip
    simpa using this
  simp only [assignStep]
  rw [hcurI, findParent_strip simFn θ _ hstrip i]
  split
  · exact hcurI
  · split
    · split
      · exact hcurI
      · rw [getD_modifyAt_self _ (hlenc ▸ hi), hcurI]
    · exact hcurI

/-- Candidates of `_find_parent` have strictly lower importance. -/
theorem linkCandidates_lt (df : List Belief) (i : Nat) :
    ∀ c ∈ linkCandidates df i, c.importance < (df.getD i default).importance := by
  intro c hc
  unfold linkCandidates at hc
  obtain ⟨q, hq, rfl⟩ := List.mem_map.mp hc
  exact (of_decide_eq_true (List.mem_filter.mp hq).2).2

/-- Candidates of `_find_parent` are rows of the frame. -/
theorem linkCandidates_subset (df : List Belief) (i : Nat) :
    ∀ c ∈ linkCandidates df i, c ∈ df := by
  intro c hc
  unfold linkCandidates at hc
  obtain ⟨q, hq, rfl⟩ := List.mem_map.mp hc
  have hqe : q ∈ df.enum := (List.mem_filter.mp hq).1
  have : df[q.1]? = some q.2 := by
    have := List.mk_mem_enum_iff_getElem?.mp (show (q.1, q.2) ∈ df.enum from hqe)
    exact this
  obtain ⟨hlt, he⟩ := List.getElem?_eq_some_iff.mp this
  exact he ▸ List.getElem_mem hlt

/-- C1 — confirmed. For a belief with a non-empty parent hint and no
pre-assigned parent, `link_beliefs` considers as candidate parents exactly
the other beliefs of strictly lower importance; when similarity scoring
succeeds it selects the argmax-scoring candidate and assigns its id as
`parent_belief_id` if and only if the best score meets the threshold: with no
candidates or a best score below the threshold, `parent_belief_id` stays
null. -/
theorem c1_link_assigns (simFn : String → List String → Option (List ℚ)) (θ : ℚ)
    (df : List Belief) (i : Nat) (b : Belief) (scores : List ℚ)
    (hi : i < df.length)
    (hb : df.getD i default = b)
    (hhint : pyStrip b.parent_hint ≠ "")
    (hparent : b.parent_belief_id = none)
    (hids : ∀ x ∈ df, x.belief_id ≠ "")
    (hsim : simFn b.parent_hint ((linkCandidates df i).map (·.statement_text)) = some scores)
    (hlen : scores.length = (linkCandidates df i).length) :
    (∀ c ∈ linkCandidates df i, c.importance < b.importance) ∧
      (linkCandidates df i ≠ [] → θ ≤ scores.getD (argmaxIdx scores) 0 →
        ((linkBeliefs simFn θ df).1.getD i default =
          { b with parent_belief_id := some (((linkCandidates df i).getD (argmaxIdx scores) default).belief_id) } ∧
          ∀ k, k < scores.length → scores.getD k 0 ≤ scores.getD (argmaxIdx scores) 0)) ∧
      ((linkCandidates df i = [] ∨ scores.getD (argmaxIdx scores) 0 < θ) →
        ((linkBeliefs simFn θ df).1.getD i default = b ∧
          ((linkBeliefs simFn θ df).1.getD i default).parent_belief_id = none)) := by
  have hne : df ≠ [] := by
    intro h
    rw [h] at hi
    exact absurd hi (by simp)
  have hlb : (linkBeliefs simFn θ df).1 = assignParents simFn θ df := by
    unfold linkBeliefs
    rw [if_neg (fun hE => hne (List.isEmpty_iff.mp hE))]
  have hap := assignParents_getD simFn θ df i hi
  rw [hb] at hap
  rw [if_neg hhint] at hap
  refine ⟨?_, ?_, ?_⟩
  · intro c hc
    rw [← hb]
    exact linkCandidates_lt df i c hc
  · intro hcne hθ
    have hEf : (linkCandidates df i).isEmpty = false := by
      cases hcc : linkCandidates df i with
      | nil => exact absurd hcc hcne
      | cons x xs => rfl
    have hslen_pos : scores ≠ [] := by
      intro hsz
      apply hcne
      cases hcc : linkCandidates df i with
      | nil => rfl
      | cons x xs =>
        rw [hsz, hcc] at hlen
        exact absurd hlen.symm (by simp)
    have hamax_lt : argmaxIdx scores < (linkCandidates df i).length := by
      rw [← hlen]
      exact (argmaxIdx_spec scores hslen_pos).1
    have hmem : (linkCandidates df i).getD (argmaxIdx scores) default ∈ linkCandidates df i := by
      rw [List.getD_eq_getElem _ _ hamax_lt]
      exact List.getElem_mem hamax_lt
    have hpid : ((linkCandidates df i).getD (argmaxIdx scores) default).belief_id ≠ "" :=
      hids _ (linkCandidates_subset df i _ hmem)
    have hfp : findParent simFn θ b.parent_hint df i =
        some (((linkCandidates df i).getD (argmaxIdx scores) default).belief_id) := by
      simp only [findParent]
      rw [hEf]
      simp only [Bool.false_eq_true, if_false]
      rw [hsim]
      simp only [if_pos hθ]
    rw [hfp] at hap
    simp only [if_neg hpid] at hap
    rw [hlb]
    exact ⟨hap, (argmaxIdx_spec scores hslen_pos).2⟩
  · intro hdisj
    have hfp : findParent simFn θ b.parent_hint df i = none := by
      simp only [findParent]
      rcases hdisj with hcem | hblow
      · rw [hcem]
        rfl
      · by_cases hcem : linkCandidates df i = []
        · rw [hcem]
          rfl
        · have hEf : (linkCandidates df i).isEmpty = false := by
            cases hcc : linkCandidates df i with
            | nil => exact absurd hcc hcem
            | cons x xs => rfl
          rw [hEf]
          simp only [Bool.false_eq_true, if_false]
          rw [hsim]
          simp only [if_neg (not_le.mpr hblow)]
    rw [hfp] at hap
    rw [hlb, hap]
    exact ⟨rfl, hparent⟩

/-- C1 — witness at the concrete collection `dfLink`: `exChild` (importance
8, hint "freedom is important") links to `exRoot` (importance 2) when the
scorer returns 7/10 against threshold 3/5. -/
theorem c1_witness :
    (linkCandidates dfLink 1 ≠ [] ∧
      Rat.divInt 3 5 ≤ [Rat.divInt 7 10].getD (argmaxIdx [Rat.divInt 7 10]) 0) ∧
      (linkBeliefs simSeven (Rat.divInt 3 5) dfLink).1.getD 1 default =
        { exChild with parent_belief_id := some "R" } := by
  refine ⟨⟨by decide, by decide⟩, ?_⟩
  have h := (c1_link_assigns simSeven (Rat.divInt 3 5) dfLink 1 exChild [Rat.divInt 7 10]
    (by decide) (by decide) (by decide) rfl (by decide) (by decide) (by decide)).2.1
    (by decide) (by decide)
  rw [h.1]
  have hid : ((linkCandidates dfLink 1).getD (argmaxIdx [Rat.divInt 7 10]) default).belief_id = "R" := by decide
  rw [hid]

/-! ### C4 machinery: completeness of the `_validate_hierarchy` DFS -/

/-- A node all of whose children are cycle-free is cycle-free. -/
theorem cycReach_of_children {ch : String → List String} {n : String}
    (h : ∀ c ∈ ch n, ¬CycReach ch c) : ¬CycReach ch n := by
  rintro ⟨m, hreach, hcyc⟩
  rcases Relation.ReflTransGen.cases_head hreach with heq | ⟨c, hedge, hrest⟩
  · subst heq
    obtain ⟨c, hedge, hrest⟩ := Relation.TransGen.head'_iff.mp hcyc
    exact h c hedge ⟨n, hrest, hcyc⟩
  · exact h c hedge ⟨m, hrest, hcyc⟩

/-- The loop over the children inside `has_cycle`, returning `false`: the
visited set only grows within the node universe, the invariant that visited
nodes off the recursion stack are cycle-free is preserved, and every scanned
child ends up visited, off the stack, and cycle-free. -/
theorem hasCycleKids_false (ch : String → List String) (U : Finset String)
    (_hU : ∀ x y, y ∈ ch x → y ∈ U) (f : Nat)
    (hnode : ∀ (node : String) (V R : Finset String),
      (∀ x ∈ V, x ∉ R → ¬CycReach ch x) → R ⊆ V → node ∉ V → node ∈ U →
      (U \ V).card < f →
      ∀ V1, hasCycleNode ch f node V R = (false, V1) →
        V ⊆ V1 ∧ node ∈ V1 ∧ (∀ x ∈ V1, x ∉ R → ¬CycReach ch x) ∧ V1 ⊆ V ∪ U) :
    ∀ (l : List String) (V R : Finset String),
      (∀ x ∈ V, x ∉ R → ¬CycReach ch x) → R ⊆ V → (∀ c ∈ l, c ∈ U) →
      (U \ V).card < f →
      ∀ V1, hasCycleKids ch f l V R = (false, V1) →
        V ⊆ V1 ∧ (∀ x ∈ V1, x ∉ R → ¬CycReach ch x) ∧ V1 ⊆ V ∪ U ∧
          (∀ c ∈ l, c ∈ V1 ∧ c ∉ R ∧ ¬CycReach ch c) := by
  intro l
  induction l with
  | nil =>
    intro V R hInv hRV hl hcard V1 hres
    rw [hasCycleKids] at hres
    obtain ⟨-, rfl⟩ : false = false ∧ V = V1 := by
      exact ⟨rfl, congrArg Prod.snd hres⟩
    exact ⟨Finset.Subset.refl V, hInv, Finset.subset_union_left,
      fun c hc => absurd hc (List.not_mem_nil c)⟩
  | cons c cs ih =>
    intro V R hInv hRV hl hcard V1 hres
    rw [hasCycleKids] at hres
    by_cases hcV : c ∈ V
    · rw [if_pos hcV] at hres
      by_cases hcR : c ∈ R
      · rw [if_pos hcR] at hres
        exact absurd (congrArg Prod.fst hres) (by simp)
      · rw [if_neg hcR] at hres
        obtain ⟨hVV1, hInv1, hV1U, hcs⟩ :=
          ih V R hInv hRV (fun x hx => hl x (List.mem_cons_of_mem c hx)) hcard V1 hres
        refine ⟨hVV1, hInv1, hV1U, ?_⟩
        intro x hx
        rcases List.mem_cons.mp hx with rfl | hx
        · exact ⟨hVV1 hcV, hcR, hInv x hcV hcR⟩
        · exact hcs x hx
    · rw [if_neg hcV] at hres
      cases hrec : hasCycleNode ch f c V R with
      | mk b V2 =>
        rw [hrec] at hres
        cases b with
        | true => exact absurd (congrArg Prod.fst hres) (by simp)
        | false =>
          obtain ⟨hVV2, hcV2, hInv2, hV2U⟩ :=
            hnode c V R hInv hRV hcV (hl c (List.mem_cons_self c cs)) hcard V2 hrec
          have hcard2 : (U \ V2).card < f :=
            Nat.lt_of_le_of_lt
              (Finset.card_le_card (Finset.sdiff_subset_sdiff (Finset.Subset.refl U) hVV2))
              hcard
          obtain ⟨hV2V1, hInv1, hV1U, hcs⟩ :=
            ih V2 R hInv2 (Finset.Subset.trans hRV hVV2)
              (fun x hx => hl x (List.mem_cons_of_mem c hx)) hcard2 V1 hres
          have hcnR : c ∉ R := fun hcr => hcV (hRV hcr)
          refine ⟨Finset.Subset.trans hVV2 hV2V1, hInv1, ?_, ?_⟩
          · intro x hx
            rcases Finset.mem_union.mp (hV1U hx) with hx2 | hxU
            · rcases Finset.mem_union.mp (hV2U hx2) with hxV | hxU
              · exact Finset.mem_union_left _ hxV
              · exact Finset.mem_union_right _ hxU
            · exact Finset.mem_union_right _ hxU
          · intro x hx
            rcases List.mem_cons.mp hx with rfl | hx
            · exact ⟨hV2V1 hcV2, hcnR, hInv1 x (hV2V1 hcV2) hcnR⟩
            · exact hcs x hx

/-- The `has_cycle` DFS returning `false` from a fresh node, given enough
fuel: the node and everything newly visited is cycle-free. -/
theorem hasCycleNode_false (ch : String → List String) (U : Finset String)
    (hU : ∀ x y, y ∈ ch x → y ∈ U) :
    ∀ (f : Nat) (node : String) (V R : Finset String),
      (∀ x ∈ V, x ∉ R → ¬CycReach ch x) → R ⊆ V → node ∉ V → node ∈ U →
      (U \ V).card < f →
      ∀ V1, hasCycleNode ch f node V R = (false, V1) →
        V ⊆ V1 ∧ node ∈ V1 ∧ (∀ x ∈ V1, x ∉ R → ¬CycReach ch x) ∧ V1 ⊆ V ∪ U := by
  intro f
  induction f with
  | zero =>
    intro node V R _ _ _ _ hcard
    exact absurd hcard (by simp)
  | succ f ih =>
    intro node V R hInv hRV hnV hnU hcard V1 hres
    rw [hasCycleNode] at hres
    have hInv1 : ∀ x ∈ insert node V, x ∉ insert node R → ¬CycReach ch x := by
      intro x hx hxR
      rcases Finset.mem_insert.mp hx with rfl | hx
      · exact absurd (Finset.mem_insert_self x R) hxR
      · exact hInv x hx (fun hr => hxR (Finset.mem_insert_of_mem hr))
    have hRV1 : insert node R ⊆ insert node V := Finset.insert_subset_insert node hRV
    have hcard1 : (U \ insert node V).card < f := by
      rw [Finset.sdiff_insert]
      have hmem : node ∈ U \ V := Finset.mem_sdiff.mpr ⟨hnU, hnV⟩
      have h1 : ((U \ V).erase node).card = (U \ V).card - 1 :=
        Finset.card_erase_of_mem hmem
      have h2 : 0 < (U \ V).card := Finset.card_pos.mpr ⟨node, hmem⟩
      omega
    obtain ⟨hVV1, hInvK, hV1U, hkids⟩ :=
      hasCycleKids_false ch U hU f ih (ch node) (insert node V) (insert node R)
        hInv1 hRV1 (fun c hc => hU node c hc) hcard1 V1 hres
    have hnode_safe : ¬CycReach ch node := by
      apply cycReach_of_children
      intro c hc
      exact (hkids c hc).2.2
    refine ⟨Finset.Subset.trans (Finset.subset_insert node V) hVV1,
      hVV1 (Finset.mem_insert_self node V), ?_, ?_⟩
    · intro x hx hxR
      by_cases hxn : x = node
      · subst hxn
        exact hnode_safe
      · exact hInvK x hx (fun hri => by
          rcases Finset.mem_insert.mp hri with h | h
          · exact hxn h
          · exact hxR h)
    · intro x hx
      rcases Finset.mem_union.mp (hV1U hx) with hxi | hxU
      · rcases Finset.mem_insert.mp hxi with rfl | hxV
        · exact Finset.mem_union_right _ hnU
        · exact Finset.mem_union_left _ hxV
      · exact Finset.mem_union_right _ hxU

/-- The validation loop only appends warnings. -/
theorem validateFold_warnings_prefix (ch : String → List String) (fuel : Nat) :
    ∀ (bids : List String) (st : Finset String × List String),
      ∃ t, (bids.foldl (validateStep ch fuel) st).2 = st.2 ++ t := by
  intro bids
  induction bids with
  | nil => intro st; exact ⟨[], (List.append_nil st.2).symm⟩
  | cons b bs ih =>
    intro st
    rw [List.foldl_cons]
    have hstep : ∃ u, (validateStep ch fuel st b).2 = st.2 ++ u := by
      unfold validateStep
      split
      · exact ⟨[], (List.append_nil st.2).symm⟩
      · split
        · exact ⟨[b], rfl⟩
        · exact ⟨[], (List.append_nil st.2).symm⟩
    obtain ⟨u, hu⟩ := hstep
    obtain ⟨t, ht⟩ := ih (validateStep ch fuel st b)
    exact ⟨u ++ t, by rw [ht, hu, List.append_assoc]⟩

/-- Warnings emitted by the validation loop name iterated belief ids. -/
theorem validateFold_warn_mem (ch : String → List String) (fuel : Nat) :
    ∀ (bids : List String) (st : Finset String × List String) (x : String),
      x ∈ (bids.foldl (validateStep ch fuel) st).2 → x ∈ st.2 ∨ x ∈ bids := by
  intro bids
  induction bids with
  | nil => intro st x hx; exact Or.inl hx
  | cons b bs ih =>
    intro st x hx
    rw [List.foldl_cons] at hx
    rcases ih (validateStep ch fuel st b) x hx with hst | hbs
    · have : x ∈ st.2 ∨ x = b := by
        revert hst
        unfold validateStep
        split
        · exact fun h => Or.inl h
        · split
          · intro h
            rcases List.mem_append.mp h with h | h
            · exact Or.inl h
            · exact Or.inr (List.mem_singleton.mp h)
          · exact fun h => Or.inl h
      rcases this with h | rfl
      · exact Or.inl h
      · exact Or.inr (List.mem_cons_self x bs)
    · exact Or.inr (List.mem_cons_of_mem b hbs)

/-- If the validation loop over `bids` emits no warning, every iterated id is
visited and everything visited is cycle-free. -/
theorem validateFold_safe (ch : String → List String) (fuel : Nat) (U : Finset String)
    (hU : ∀ x y, y ∈ ch x → y ∈ U) (hfuel : U.card < fuel) :
    ∀ (bids : List String) (V : Finset String) (w : List String),
      (∀ x ∈ V, ¬CycReach ch x) → V ⊆ U → (∀ b ∈ bids, b ∈ U) →
      (bids.foldl (validateStep ch fuel) (V, w)).2 = w →
      (∀ x ∈ (bids.foldl (validateStep ch fuel) (V, w)).1, ¬CycReach ch x) ∧
        (∀ b ∈ bids, b ∈ (bids.foldl (validateStep ch fuel) (V, w)).1) ∧
        V ⊆ (bids.foldl (validateStep ch fuel) (V, w)).1 := by
  intro bids
  induction bids with
  | nil =>
    intro V w hInv _ _ _
    exact ⟨hInv, fun b hb => absurd hb (List.not_mem_nil b),
      Finset.Subset.refl V⟩
  | cons b bs ih =>
    intro V w hInv hVU hb hw
    rw [List.foldl_cons] at hw ⊢
    by_cases hbV : b ∈ V
    · have hstep : validateStep ch fuel (V, w) b = (V, w) := by
        unfold validateStep
        rw [if_pos hbV]
      rw [hstep] at hw ⊢
      obtain ⟨hsafe, hall, hmono⟩ :=
        ih V w hInv hVU (fun x hx => hb x (List.mem_cons_of_mem b hx)) hw
      refine ⟨hsafe, ?_, hmono⟩
      intro x hx
      rcases List.mem_cons.mp hx with rfl | hx
      · exact hmono hbV
      · exact hall x hx
    · cases hrec : hasCycleNode ch fuel b V ∅ with
      | mk bb V2 =>
        cases bb with
        | true =>
          have hstep : validateStep ch fuel (V, w) b = (V2, w ++ [b]) := by
            unfold validateStep
            rw [if_neg hbV, hrec]
          rw [hstep] at hw
          obtain ⟨t, ht⟩ := validateFold_warnings_prefix ch fuel bs (V2, w ++ [b])
          rw [ht] at hw
          have hlen := congrArg List.length hw
          simp at hlen
        | false =>
          have hstep : validateStep ch fuel (V, w) b = (V2, w) := by
            unfold validateStep
            rw [if_neg hbV, hrec]
          rw [hstep] at hw ⊢
          have hcard : (U \ V).card < fuel :=
            Nat.lt_of_le_of_lt (Finset.card_le_card Finset.sdiff_subset) hfuel
          obtain ⟨hVV2, hbV2, hInv2', hV2U⟩ :=
            hasCycleNode_false ch U hU fuel b V ∅
              (fun x hx _ => hInv x hx) (Finset.empty_subset V) hbV
              (hb b (List.mem_cons_self b bs)) hcard V2 hrec
          have hInv2 : ∀ x ∈ V2, ¬CycReach ch x :=
            fun x hx => hInv2' x hx (Finset.not_mem_empty x)
          have hV2U' : V2 ⊆ U := by
            intro x hx
            rcases Finset.mem_union.mp (hV2U hx) with h | h
            · exact hVU h
            · exact h
          obtain ⟨hsafe, hall, hmono⟩ :=
            ih V2 w hInv2 hV2U' (fun x hx => hb x (List.mem_cons_of_mem b hx)) hw
          refine ⟨hsafe, ?_, Finset.Subset.trans hVV2 hmono⟩
          intro x hx
          rcases List.mem_cons.mp hx with rfl | hx
          · exact hmono hbV2
          · exact hall x hx

/-- C4 — confirmed. When the assigned parent relation contains a cycle,
`link_beliefs` surfaces a warning naming an implicated belief id, and returns
the collection exactly as the linking pass assigned it: the validation pass
is pure, never modifies `parent_belief_id`, never repairs the cycle and never
fails; every warned id is a belief id of the collection. -/
theorem c4_cycle_surfaced (simFn : String → List String → Option (List ℚ)) (θ : ℚ)
    (df : List Belief)
    (hcyc : ∃ a, Relation.TransGen
      (chEdge (childrenOf (assignParents simFn θ df))) a a) :
    (linkBeliefs simFn θ df).2 ≠ [] ∧
      (linkBeliefs simFn θ df).1 = assignParents simFn θ df ∧
      ∀ wid ∈ (linkBeliefs simFn θ df).2,
        wid ∈ (assignParents simFn θ df).map (·.belief_id) := by
  set r := assignParents simFn θ df with hr
  obtain ⟨a, hcyca⟩ := hcyc
  have haid : a ∈ r.map (·.belief_id) := by
    obtain ⟨b, hab, hba⟩ := Relation.TransGen.tail'_iff.mp hcyca
    have hba' : a ∈ childrenOf r b := hba
    unfold childrenOf at hba'
    obtain ⟨x, hx, rfl⟩ := List.mem_map.mp hba'
    exact List.mem_map_of_mem _ (List.mem_of_mem_filter hx)
  have hdfne : df ≠ [] := by
    intro h
    subst h
    have hre : r = [] := by
      rw [hr]
      unfold assignParents
      simp
    rw [hre] at haid
    exact absurd haid (by simp)
  have hlb : linkBeliefs simFn θ df = (r, validateHierarchy r) := by
    unfold linkBeliefs
    rw [if_neg (fun hE => hdfne (List.isEmpty_iff.mp hE))]
  refine ⟨?_, by rw [hlb], ?_⟩
  · rw [hlb]
    intro hw
    have hw' : ((r.map (·.belief_id)).foldl
        (validateStep (childrenOf r) (r.length + 1)) (∅, [])).2 = [] := hw
    have hU : ∀ x y, y ∈ childrenOf r x → y ∈ (r.map (·.belief_id)).toFinset := by
      intro x y hy
      unfold childrenOf at hy
      obtain ⟨z, hz, rfl⟩ := List.mem_map.mp hy
      rw [List.mem_toFinset]
      exact List.mem_map_of_mem _ (List.mem_of_mem_filter hz)
    have hfuel : (r.map (·.belief_id)).toFinset.card < r.length + 1 := by
      have h1 : (r.map (·.belief_id)).toFinset.card ≤ (r.map (·.belief_id)).length :=
        List.toFinset_card_le _
      rw [List.length_map] at h1
      omega
    obtain ⟨hsafe, hall, -⟩ :=
      validateFold_safe (childrenOf r) (r.length + 1) (r.map (·.belief_id)).toFinset
        hU hfuel (r.map (·.belief_id)) ∅ []
        (fun x hx => absurd hx (Finset.not_mem_empty x))
        (Finset.empty_subset _)
        (fun b hb => List.mem_toFinset.mpr hb)
        hw'
    exact hsafe a (hall a haid) ⟨a, Relation.ReflTransGen.refl, hcyca⟩
  · rw [hlb]
    intro wid hwid
    have hwid' : wid ∈ ((r.map (·.belief_id)).foldl
        (validateStep (childrenOf r) (r.length + 1)) (∅, [])).2 := hwid
    rcases validateFold_warn_mem (childrenOf r) (r.length + 1) (r.map (·.belief_id))
        (∅, []) wid hwid' with h | h
    · exact absurd h (List.not_mem_nil wid)
    · exact h

/-- C4 — witness at the concrete cyclic collection `dfCycle` (`x ↔ y`,
blank hints so the linking pass leaves the pre-assigned cycle in place). -/
theorem c4_witness :
    (linkBeliefs simFail 1 dfCycle).2 ≠ [] ∧
      (linkBeliefs simFail 1 dfCycle).1 = assignParents simFail 1 dfCycle := by
  have e1 : chEdge (childrenOf (assignParents simFail 1 dfCycle)) "x" "y" := by
    show "y" ∈ childrenOf (assignParents simFail 1 dfCycle) "x"
    decide
  have e2 : chEdge (childrenOf (assignParents simFail 1 dfCycle)) "y" "x" := by
    show "x" ∈ childrenOf (assignParents simFail 1 dfCycle) "y"
    decide
  have h := c4_cycle_surfaced simFail 1 dfCycle
    ⟨"x", Relation.TransGen.head e1 (Relation.TransGen.single e2)⟩
  exact ⟨h.1, h.2.1⟩

end PBM
